import Mathlib

/-!
# pokegraph: the uid cache and the document preprocessor of `cmd/dataload`

A shallow embedding of `src/cmd/dataload/main.go`:

* Go's `map[string]T` is an association list `List (String × T)`; the order of
  the pairs stands for the order in which a `range` loop of one run visits the
  keys (Go leaves that order unspecified, so results are stated for every list).
* `uidCache` carries `uids`, `blanks` and `latestBlank`; every method runs under
  the cache mutex, so a method call is one atomic state transition.
* `log.Fatalf` and a failed type assertion end the run; they are the `error`
  results of `Except`.
* `latestBlank` is a Go `int` that starts at zero and grows by one per minted
  identifier; it is a `Nat` here (2^63 increments would be needed to wrap).
-/

namespace PokeGraph

/-! ## Go maps with string keys -/

/-- The value stored under `k` (`v, ok := m[k]`). -/
def mapGet {β : Type} : List (String × β) → String → Option β
  | [], _ => none
  | (k', v) :: rest, k => if k' = k then some v else mapGet rest k

/-- The map without the key `k` (`delete(m, k)`). -/
def mapDelete {β : Type} (m : List (String × β)) (k : String) : List (String × β) :=
  m.filter (fun e => decide (e.1 ≠ k))

/-- The map with `k` bound to `v` (`m[k] = v`): the old binding of `k` is
dropped and the new one is put last. -/
def mapSet {β : Type} (m : List (String × β)) (k : String) (v : β) : List (String × β) :=
  mapDelete m k ++ [(k, v)]

/-! ## The uid cache -/

/-- The cache of `main.go:127`; the embedded mutex is the atomicity of each method. -/
structure uidCache where
  uids : List (String × String)
  blanks : List (String × String)
  latestBlank : Nat
  deriving DecidableEq

/-- The package variable `uids` of `main.go:125` at program start. -/
def uidCache.empty : uidCache := { uids := [], blanks := [], latestBlank := 0 }

/-- The identifier `fmt.Sprintf("_:%d", n)`. -/
def blankName (n : Nat) : String := "_:" ++ toString n

/-- The loop of `setBlank` that looks for the URL a blank was given for: the
first key whose value is `blank`, and the zero string when there is none. -/
def findBlank : List (String × String) → String → String
  | [], _ => ""
  | (u, b) :: rest, blank => if b ≠ blank then findBlank rest blank else u

/-- The message of the `log.Fatalf` call in `setBlank`. -/
def fatalMsg (url old uid : String) : String :=
  "uid already assigned for " ++ url ++ ": was " ++ old ++ " got " ++ uid

/-- The method `setBlank` of `main.go:134`; `error` is the exit through `log.Fatalf`. -/
def uidCache.setBlank (c : uidCache) (blank uid : String) : Except String uidCache :=
  let url := findBlank c.blanks blank
  if url = "" then
    .ok c
  else
    let blanks := mapDelete c.blanks url
    match mapGet c.uids url with
    | some old =>
      if uid ≠ old then .error (fatalMsg url old uid)
      else .ok { uids := mapSet c.uids url uid, blanks := blanks, latestBlank := c.latestBlank }
    | none => .ok { uids := mapSet c.uids url uid, blanks := blanks, latestBlank := c.latestBlank }

/-- The method `anonymous` of `main.go:166`. -/
def uidCache.anonymous (c : uidCache) : String × uidCache :=
  (blankName (c.latestBlank + 1), { c with latestBlank := c.latestBlank + 1 })

/-- The method `get` of `main.go:173`. -/
def uidCache.get (c : uidCache) (url : String) : String × uidCache :=
  match mapGet c.uids url with
  | some uid => (uid, c)
  | none =>
    match mapGet c.blanks url with
    | some uid => (uid, c)
    | none =>
      (blankName (c.latestBlank + 1),
        { c with blanks := mapSet c.blanks url (blankName (c.latestBlank + 1)),
                 latestBlank := c.latestBlank + 1 })

/-- One call of a method of the cache. -/
inductive Call where
  | get (url : String)
  | anonymous
  | setBlank (blank uid : String)
  deriving DecidableEq

/-- The cache after one call. -/
def uidCache.call (c : uidCache) : Call → Except String uidCache
  | .get url => .ok (c.get url).2
  | .anonymous => .ok c.anonymous.2
  | .setBlank blank uid => c.setBlank blank uid

/-- The cache after a sequence of calls, each one atomic. -/
def uidCache.run (c : uidCache) : List Call → Except String uidCache
  | [] => .ok c
  | x :: rest =>
    match c.call x with
    | .ok c1 => c1.run rest
    | .error e => .error e

/-- A cache state the program can be in: the result of some sequence of calls
on the empty cache. -/
def Reachable (c : uidCache) : Prop := ∃ calls, uidCache.empty.run calls = .ok c

/-- Whether a call is `setBlank` on the placeholder `p`. -/
def Call.resolves (p : String) : Call → Bool
  | .setBlank blank _ => decide (blank = p)
  | _ => false

/-! ## Decoded JSON documents -/

/-- What `json.Unmarshal` stores in an `interface{}`: `nil`, `bool`, `float64`
(kept as its bit pattern, which `preprocess` never inspects), `string`,
`[]interface{}` and `map[string]interface{}`. -/
inductive JSON where
  | null
  | bool (b : Bool)
  | num (bits : Nat)
  | str (s : String)
  | arr (elems : List JSON)
  | obj (fields : List (String × JSON))

mutual
/-- The nesting depth of a document: the number of nested lists and objects. -/
def JSON.depth : JSON → Nat
  | .arr l => depthElems l + 1
  | .obj f => depthFields f + 1
  | _ => 0
/-- The largest depth among the elements of a list. -/
def depthElems : List JSON → Nat
  | [] => 0
  | x :: xs => max x.depth (depthElems xs)
/-- The largest depth among the values of the fields of an object. -/
def depthFields : List (String × JSON) → Nat
  | [] => 0
  | (_, x) :: xs => max x.depth (depthFields xs)
end

/-- How a run of `preprocess` can end without a result. -/
inductive Failure where
  | urlNotString
  | fuel
  deriving DecidableEq

/-- The part of `preprocess` that handles one object before the walk descends
(`main.go:203-209`): `names` is deleted, `uid` is set from the `url` field, and an
object still without `uid` gets an anonymous one. The assertion `url.(string)`
panics on a value that is not a string. -/
def assignUid (c : uidCache) (t : List (String × JSON)) :
    Except Failure (List (String × JSON) × uidCache) :=
  let t := mapDelete t "names"
  match (match mapGet t "url" with
    | some (.str url) => Except.ok (mapSet t "uid" (.str (c.get url).1), (c.get url).2)
    | some _ => Except.error Failure.urlNotString
    | none => Except.ok (t, c)) with
  | .error e => .error e
  | .ok (t, c) =>
    match mapGet t "uid" with
    | some _ => .ok (t, c)
    | none => .ok (mapSet t "uid" (.str c.anonymous.1), c.anonymous.2)

/-- The loop `for k, v := range t` with body `f`: the values are rewritten in
place, in the order of the list, and the cache is threaded through. -/
def forFields (f : uidCache → JSON → Except Failure (JSON × uidCache)) :
    uidCache → List (String × JSON) → Except Failure (List (String × JSON) × uidCache)
  | c, [] => .ok ([], c)
  | c, (k, v) :: rest =>
    match f c v with
    | .error e => .error e
    | .ok (v', c1) =>
      match forFields f c1 rest with
      | .error e => .error e
      | .ok (rest', c2) => .ok ((k, v') :: rest', c2)

/-- The loop `for i, v := range t` over a list with body `f`. -/
def forElems (f : uidCache → JSON → Except Failure (JSON × uidCache)) :
    uidCache → List JSON → Except Failure (List JSON × uidCache)
  | c, [] => .ok ([], c)
  | c, v :: rest =>
    match f c v with
    | .error e => .error e
    | .ok (v', c1) =>
      match forElems f c1 rest with
      | .error e => .error e
      | .ok (rest', c2) => .ok (v' :: rest', c2)

/-- The function `preprocess` of `main.go:199` with a bound on the recursion
depth. The `context` argument only builds strings that are never read and is left
out; the `default` branch is not reachable for a decoded JSON value. -/
def preprocessN : Nat → uidCache → JSON → Except Failure (JSON × uidCache)
  | 0, _, .obj _ => .error .fuel
  | 0, _, .arr _ => .error .fuel
  | n + 1, c, .obj fields =>
    match assignUid c fields with
    | .error e => .error e
    | .ok (t, c1) =>
      match forFields (preprocessN n) c1 t with
      | .error e => .error e
      | .ok (t', c2) => .ok (.obj t', c2)
  | n + 1, c, .arr elems =>
    match forElems (preprocessN n) c elems with
    | .error e => .error e
    | .ok (elems', c2) => .ok (.arr elems', c2)
  | _, c, .null => .ok (.null, c)
  | _, c, .bool b => .ok (.bool b, c)
  | _, c, .num x => .ok (.num x, c)
  | _, c, .str s => .ok (.str s, c)

/-- The function `preprocess` of `main.go:199`: the document after the walk and
the cache after it, or the failure that ended the run. The recursion bound is the
depth of the document. -/
def preprocess (c : uidCache) (data : JSON) : Except Failure (JSON × uidCache) :=
  preprocessN data.depth c data

/-- One step from a document to a part of it: into the field `k` of an object or
to the element `i` of a list. -/
inductive Step where
  | key (k : String)
  | index (i : Nat)
  deriving DecidableEq

/-- The part of a document at a path. -/
def JSON.at : JSON → List Step → Option JSON
  | d, [] => some d
  | .obj fields, .key k :: p =>
    match mapGet fields k with
    | some v => v.at p
    | none => none
  | .arr elems, .index i :: p =>
    match elems[i]? with
    | some v => v.at p
    | none => none
  | _, _ :: _ => none

/-- Whether the walk of `preprocess` on `d` descends along the path: no step
goes into a `names` field, which is deleted, or into the `uid` field of an object
that has a `url` field, which is overwritten before the loop over the fields. -/
def walkedPath : JSON → List Step → Bool
  | _, [] => true
  | .obj t, .key k :: p =>
    (decide (k ≠ "names") && (decide (k ≠ "uid") || (mapGet t "url").isNone)) &&
      match mapGet t k with
      | some v => walkedPath v p
      | none => false
  | .arr l, .index i :: p =>
    match l[i]? with
    | some v => walkedPath v p
    | none => false
  | _, _ :: _ => false

/-- The relation `Within live d x`: the value `x` is `d` itself or lies in `d`
below list elements and below those fields `k` of objects `t` for which
`live t k` holds. -/
inductive Within (live : List (String × JSON) → String → Prop) : JSON → JSON → Prop where
  | root (d : JSON) : Within live d d
  | field (t : List (String × JSON)) (k : String) (v x : JSON) :
      (k, v) ∈ t → live t k → Within live v x → Within live (.obj t) x
  | elem (l : List JSON) (v x : JSON) :
      v ∈ l → Within live v x → Within live (.arr l) x

/-- Every field counts: all parts of a document at any nesting depth. -/
def anyField : List (String × JSON) → String → Prop := fun _ _ => True

/-- The fields other than `names`. -/
def notNames : List (String × JSON) → String → Prop := fun _ k => k ≠ "names"

/-- The fields the walk of `preprocess` descends into: not `names`, and not the
`uid` of an object that has a `url`, whose old value is overwritten first. -/
def walked : List (String × JSON) → String → Prop :=
  fun t k => k ≠ "names" ∧ (k = "uid" → mapGet t "url" = none)

/-- A value that is not a Go string. -/
def JSON.notString : JSON → Prop
  | .str _ => False
  | _ => True

/-- The document has, among the parts selected by `live`, an object whose `url`
field is not a string. -/
def BadUrl (live : List (String × JSON) → String → Prop) (d : JSON) : Prop :=
  ∃ t v, Within live d (.obj t) ∧ mapGet t "url" = some v ∧ v.notString

/-! ## Submitting a document -/

/-- How a call of `mutate` ends: it returns `nil`, it returns an error, or the
process exits in `log.Fatalf`. The cache is the one left behind. -/
inductive MutateResult where
  | ok (c : uidCache)
  | err (msg : String) (c : uidCache)
  | fatal (msg : String)
  deriving DecidableEq

/-- The loop `for blank, uid := range res.Uids` of `mutate`. -/
def setBlanks : uidCache → List (String × String) → Except String uidCache
  | c, [] => .ok c
  | c, (blank, uid) :: rest =>
    match c.setBlank ("_:" ++ blank) uid with
    | .ok c1 => setBlanks c1 rest
    | .error e => .error e

/-- The function `mutate` of `main.go:224`. The two collaborators are
parameters: `marshal` is `json.Marshal` and `txnMutate` is the commit-now
mutation of the store, which answers with `res.Uids` or with an error. -/
def mutate (marshal : JSON → Except String String)
    (txnMutate : String → Except String (List (String × String)))
    (c : uidCache) (data : JSON) : MutateResult :=
  match marshal data with
  | .error e => .err ("could not marshal: " ++ e) c
  | .ok b =>
    match txnMutate b with
    | .error e => .err ("could not mutate: " ++ e) c
    | .ok resUids =>
      match setBlanks c resUids with
      | .ok c1 => .ok c1
      | .error e => .fatal e

/-! ## Predicates used in the proofs -/

/-- The number a list of decimal digit characters stands for, continuing from `acc`. -/
def digitsValue (acc : Nat) (cs : List Char) : Nat :=
  cs.foldl (fun a ch => 10 * a + (ch.toNat - 48)) acc

/-- What every reachable cache satisfies: `blanks` has no key twice and no value
twice, every value of `blanks` was minted from the counter, and no key of `uids`
is a key of `blanks`. -/
structure Inv (c : uidCache) : Prop where
  keys : (c.blanks.map Prod.fst).Nodup
  vals : (c.blanks.map Prod.snd).Nodup
  minted : ∀ u b, (u, b) ∈ c.blanks → ∃ k, k ≤ c.latestBlank ∧ b = blankName k
  disjoint : ∀ u, mapGet c.uids u ≠ none → mapGet c.blanks u = none

/-- The identifier the cache holds for a URL: the uid when the URL is resolved,
else the placeholder when it is pending. -/
def known (c : uidCache) (u : String) : Option String :=
  match mapGet c.uids u with
  | some v => some v
  | none => mapGet c.blanks u

/-- Every URL the first cache holds an identifier for has the same identifier in
the second. -/
def Extends (c c1 : uidCache) : Prop := ∀ u v, known c u = some v → known c1 u = some v

/-- Every object in the document with a string `url` has as `uid` the identifier
the cache holds for that URL. -/
def UidsFromCache (c : uidCache) (d : JSON) : Prop :=
  ∀ t u, Within anyField d (.obj t) → mapGet t "url" = some (.str u) →
    ∃ v, mapGet t "uid" = some (.str v) ∧ known c u = some v

/-- An object with neither a `url` nor a `uid` field. -/
def unnamed (t : List (String × JSON)) : Prop :=
  mapGet t "url" = none ∧ mapGet t "uid" = none

/-- How a walk from cache `c` to cache `c2` stamps the parts of `d` strictly
below its root, `d2` being the result: the counter does not go back, every
object without `url` and `uid` that is still in the result has as `uid` an
identifier minted during the walk, and two such objects at different paths have
different `uid`s. -/
structure StampedBelow (c c2 : uidCache) (d d2 : JSON) : Prop where
  le : c.latestBlank ≤ c2.latestBlank
  fresh : ∀ s p t t2, d.at (s :: p) = some (.obj t) → unnamed t →
    d2.at (s :: p) = some (.obj t2) →
    ∃ k, c.latestBlank < k ∧ k ≤ c2.latestBlank ∧
      mapGet t2 "uid" = some (.str (blankName k))
  apart : ∀ s p s1 q t t1 t2 t3, d.at (s :: p) = some (.obj t) → unnamed t →
    d.at (s1 :: q) = some (.obj t1) → unnamed t1 →
    d2.at (s :: p) = some (.obj t2) → d2.at (s1 :: q) = some (.obj t3) →
    mapGet t2 "uid" = mapGet t3 "uid" → s :: p = s1 :: q

/-- The same for all parts of `d`, the root included. -/
structure Stamped (c c2 : uidCache) (d d2 : JSON) : Prop where
  le : c.latestBlank ≤ c2.latestBlank
  fresh : ∀ p t t2, d.at p = some (.obj t) → unnamed t → d2.at p = some (.obj t2) →
    ∃ k, c.latestBlank < k ∧ k ≤ c2.latestBlank ∧
      mapGet t2 "uid" = some (.str (blankName k))
  apart : ∀ p q t t1 t2 t3, d.at p = some (.obj t) → unnamed t →
    d.at q = some (.obj t1) → unnamed t1 →
    d2.at p = some (.obj t2) → d2.at q = some (.obj t3) →
    mapGet t2 "uid" = mapGet t3 "uid" → p = q

/-! ## Facts about the map operations -/

theorem mapGet_mem {β : Type} (m : List (String × β)) (k : String) (v : β)
    (h : mapGet m k = some v) : (k, v) ∈ m := by
  induction m with
  | nil => simp [mapGet] at h
  | cons e rest ih =>
    obtain ⟨k', w⟩ := e
    by_cases hk : k' = k
    · simp [mapGet, hk] at h
      simp [hk, h]
    · simp [mapGet, hk] at h
      exact List.mem_cons_of_mem _ (ih h)

theorem mapGet_eq_none {β : Type} (m : List (String × β)) (k : String) :
    mapGet m k = none ↔ ∀ v, (k, v) ∉ m := by
  induction m with
  | nil => simp [mapGet]
  | cons e rest ih =>
    obtain ⟨k', w⟩ := e
    by_cases hk : k' = k
    · subst hk
      simp only [mapGet, if_true]
      constructor
      · intro h
        cases h
      · intro h
        exact absurd (List.mem_cons_self _ _) (h w)
    · simp only [mapGet, hk, if_false, ih, List.mem_cons, Prod.mk.injEq, not_or]
      constructor
      · intro h v
        exact ⟨fun hh => hk hh.1.symm, h v⟩
      · intro h v
        exact (h v).2

theorem mapGet_isSome_of_mem {β : Type} (m : List (String × β)) (k : String) (v : β)
    (h : (k, v) ∈ m) : ∃ w, mapGet m k = some w := by
  cases hg : mapGet m k with
  | none => exact absurd h ((mapGet_eq_none m k).1 hg v)
  | some w => exact ⟨w, rfl⟩

theorem mem_mapDelete {β : Type} (m : List (String × β)) (k : String) (e : String × β) :
    e ∈ mapDelete m k ↔ e ∈ m ∧ e.1 ≠ k := by
  simp [mapDelete]

theorem mem_mapSet {β : Type} (m : List (String × β)) (k : String) (v : β) (e : String × β) :
    e ∈ mapSet m k v ↔ (e ∈ m ∧ e.1 ≠ k) ∨ e = (k, v) := by
  simp [mapSet, mem_mapDelete]

theorem mapGet_append {β : Type} (m m' : List (String × β)) (k : String) :
    mapGet (m ++ m') k = match mapGet m k with
      | some v => some v
      | none => mapGet m' k := by
  induction m with
  | nil => simp [mapGet]
  | cons e rest ih =>
    obtain ⟨k', w⟩ := e
    by_cases hk : k' = k
    · simp [mapGet, hk]
    · simp [mapGet, hk, ih]

theorem mapGet_mapDelete {β : Type} (m : List (String × β)) (x k : String) :
    mapGet (mapDelete m x) k = if x = k then none else mapGet m k := by
  induction m with
  | nil => simp [mapGet, mapDelete]
  | cons e rest ih =>
    obtain ⟨k', w⟩ := e
    simp only [mapDelete] at ih
    by_cases hx : k' = x
    · subst hx
      by_cases hk : k' = k
      · simp [mapDelete, hk] at ih ⊢
        exact ih
      · simp [mapDelete, mapGet, hk] at ih ⊢
        exact ih
    · by_cases hk : k' = k
      · subst hk
        simp [mapDelete, mapGet, hx, Ne.symm hx]
      · simp [mapDelete, mapGet, hx, hk]
        by_cases hxk : x = k
        · simp [hxk] at ih ⊢
          exact ih
        · simp [hxk] at ih ⊢
          exact ih

theorem mapGet_mapSet {β : Type} (m : List (String × β)) (x k : String) (v : β) :
    mapGet (mapSet m x v) k = if x = k then some v else mapGet m k := by
  rw [mapSet, mapGet_append, mapGet_mapDelete]
  by_cases hxk : x = k
  · simp [hxk, mapGet]
  · simp only [hxk, if_false]
    cases hg : mapGet m k with
    | none => simp [mapGet, hxk]
    | some w => rfl

theorem mapDelete_of_not_key {β : Type} (m : List (String × β)) (k : String)
    (h : mapGet m k = none) : mapDelete m k = m := by
  rw [mapDelete, List.filter_eq_self]
  intro e he
  have := (mapGet_eq_none m k).1 h e.2
  simp only [decide_eq_true_eq]
  intro hk
  apply this
  rw [← hk]
  exact he

theorem mem_imp_mapGet {β : Type} (m : List (String × β)) (k : String) (v : β)
    (hnd : (m.map Prod.fst).Nodup) (h : (k, v) ∈ m) : mapGet m k = some v := by
  induction m with
  | nil => simp at h
  | cons e rest ih =>
    obtain ⟨k', w⟩ := e
    simp only [List.map_cons, List.nodup_cons] at hnd
    rcases List.mem_cons.1 h with h1 | h1
    · simp only [Prod.mk.injEq] at h1
      simp [mapGet, h1.1, h1.2]
    · have hne : k' ≠ k := by
        intro hk
        apply hnd.1
        rw [hk]
        exact List.mem_map_of_mem Prod.fst h1
      simp [mapGet, hne, ih hnd.2 h1]

/-! ## The identifiers `_:n` are pairwise different -/

theorem digitChar_value (k : Nat) (h : k < 10) : (Nat.digitChar k).toNat - 48 = k := by
  interval_cases k <;> rfl

theorem digitsValue_toDigitsCore (fuel : Nat) : ∀ (n : Nat) (ds : List Char), n < fuel →
    digitsValue 0 (Nat.toDigitsCore 10 fuel n ds) = digitsValue n ds := by
  induction fuel with
  | zero => intro n ds h; omega
  | succ fuel ih =>
    intro n ds h
    simp only [Nat.toDigitsCore]
    by_cases h0 : n / 10 = 0
    · simp only [h0, if_true]
      have hlt : n < 10 := by omega
      simp only [digitsValue, List.foldl_cons, Nat.mul_zero, Nat.zero_add]
      rw [digitChar_value _ (Nat.mod_lt _ (by decide)), Nat.mod_eq_of_lt hlt]
    · simp only [h0, if_false]
      rw [ih (n / 10) _ (by omega)]
      simp only [digitsValue, List.foldl_cons]
      rw [digitChar_value _ (Nat.mod_lt _ (by decide))]
      congr 1
      omega

theorem blankName_data (n : Nat) : (blankName n).data = '_' :: ':' :: Nat.toDigits 10 n := by
  simp [blankName, toString, Nat.repr, String.data_append]
  rfl

theorem blankName_injective (m n : Nat) (h : blankName m = blankName n) : m = n := by
  have h1 : (blankName m).data = (blankName n).data := by rw [h]
  rw [blankName_data, blankName_data] at h1
  simp only [List.cons.injEq, true_and] at h1
  have h2 := congrArg (digitsValue 0) h1
  simp only [Nat.toDigits] at h2
  rw [digitsValue_toDigitsCore _ _ _ (Nat.lt_succ_self m),
    digitsValue_toDigitsCore _ _ _ (Nat.lt_succ_self n)] at h2
  simpa [digitsValue] using h2

/-! ## The loop of `setBlank` -/

theorem findBlank_mem (m : List (String × String)) (p : String)
    (h : findBlank m p ≠ "") : (findBlank m p, p) ∈ m := by
  induction m with
  | nil => simp [findBlank] at h
  | cons e rest ih =>
    obtain ⟨u, b⟩ := e
    by_cases hb : b = p
    · simp [findBlank, hb]
    · simp only [findBlank, ne_eq, hb, not_false_eq_true, if_true] at h ⊢
      exact List.mem_cons_of_mem _ (ih h)

theorem findBlank_of_not_mem (m : List (String × String)) (p : String)
    (h : ∀ u, (u, p) ∉ m) : findBlank m p = "" := by
  induction m with
  | nil => rfl
  | cons e rest ih =>
    obtain ⟨u, b⟩ := e
    have hb : b ≠ p := by
      intro hb
      apply h u
      simp [hb]
    simp only [findBlank, ne_eq, hb, not_false_eq_true, if_true]
    exact ih (fun v hv => h v (List.mem_cons_of_mem _ hv))

theorem findBlank_of_mem (m : List (String × String)) (u p : String)
    (hv : (m.map Prod.snd).Nodup) (h : (u, p) ∈ m) : findBlank m p = u := by
  induction m with
  | nil => simp at h
  | cons e rest ih =>
    obtain ⟨u', b⟩ := e
    simp only [List.map_cons, List.nodup_cons] at hv
    rcases List.mem_cons.1 h with h1 | h1
    · simp only [Prod.mk.injEq] at h1
      simp [findBlank, h1.1, h1.2]
    · have hb : b ≠ p := by
        intro hb
        apply hv.1
        rw [hb]
        exact List.mem_map_of_mem Prod.snd h1
      simp only [findBlank, ne_eq, hb, not_false_eq_true, if_true]
      exact ih hv.2 h1

/-! ## The invariant of the cache -/

theorem inv_empty : Inv uidCache.empty :=
  ⟨by simp [uidCache.empty], by simp [uidCache.empty], by simp [uidCache.empty],
    by simp [uidCache.empty, mapGet]⟩

theorem inv_anonymous (c : uidCache) (h : Inv c) : Inv c.anonymous.2 := by
  refine ⟨h.keys, h.vals, ?_, h.disjoint⟩
  intro u b hb
  obtain ⟨k, hk, rfl⟩ := h.minted u b hb
  exact ⟨k, Nat.le_succ_of_le hk, rfl⟩

theorem get_of_uid (c : uidCache) (u v : String) (h : mapGet c.uids u = some v) :
    c.get u = (v, c) := by
  simp [uidCache.get, h]

theorem get_of_blank (c : uidCache) (u v : String) (h1 : mapGet c.uids u = none)
    (h2 : mapGet c.blanks u = some v) : c.get u = (v, c) := by
  simp [uidCache.get, h1, h2]

theorem get_of_new (c : uidCache) (u : String) (h1 : mapGet c.uids u = none)
    (h2 : mapGet c.blanks u = none) :
    c.get u = (blankName (c.latestBlank + 1),
      { uids := c.uids, blanks := c.blanks ++ [(u, blankName (c.latestBlank + 1))],
        latestBlank := c.latestBlank + 1 }) := by
  simp [uidCache.get, h1, h2, mapSet, mapDelete_of_not_key _ _ h2]

theorem inv_get (c : uidCache) (u : String) (h : Inv c) : Inv (c.get u).2 := by
  cases h1 : mapGet c.uids u with
  | some v => rw [get_of_uid c u v h1]; exact h
  | none =>
    cases h2 : mapGet c.blanks u with
    | some v => rw [get_of_blank c u v h1 h2]; exact h
    | none =>
      rw [get_of_new c u h1 h2]
      have hk := (mapGet_eq_none _ _).1 h2
      refine ⟨?_, ?_, ?_, ?_⟩
      · simp only [List.map_append, List.map_cons, List.map_nil]
        refine List.Nodup.append h.keys (List.nodup_singleton _) ?_
        intro a ha hb
        simp only [List.mem_singleton] at hb
        subst hb
        obtain ⟨e, he, rfl⟩ := List.mem_map.1 ha
        exact hk e.2 he
      · simp only [List.map_append, List.map_cons, List.map_nil]
        refine List.Nodup.append h.vals (List.nodup_singleton _) ?_
        intro a ha hb
        simp only [List.mem_singleton] at hb
        subst hb
        obtain ⟨e, he, he2⟩ := List.mem_map.1 ha
        obtain ⟨k, hk1, hk2⟩ := h.minted e.1 e.2 he
        rw [he2] at hk2
        have := blankName_injective _ _ hk2
        omega
      · intro v b hb
        simp only [List.mem_append, List.mem_singleton, Prod.mk.injEq] at hb
        rcases hb with hb | hb
        · obtain ⟨k, hk1, hk2⟩ := h.minted v b hb
          exact ⟨k, Nat.le_succ_of_le hk1, hk2⟩
        · exact ⟨c.latestBlank + 1, Nat.le_refl _, hb.2⟩
      · intro v hv
        simp only at hv ⊢
        rw [mapGet_append, h.disjoint v hv]
        have hne : u ≠ v := by
          intro huv
          apply hv
          rw [← huv]
          exact h1
        simp [mapGet, hne]

/-- In a state with the invariant `setBlank` never reaches `log.Fatalf`: it
leaves the cache alone when no non-empty URL holds the blank, and otherwise moves
that URL from `blanks` to `uids`. -/
theorem setBlank_eq (c : uidCache) (p id : String) (h : Inv c) :
    c.setBlank p id = .ok (if findBlank c.blanks p = "" then c else
      { uids := mapSet c.uids (findBlank c.blanks p) id,
        blanks := mapDelete c.blanks (findBlank c.blanks p),
        latestBlank := c.latestBlank }) := by
  by_cases hu : findBlank c.blanks p = ""
  · simp [uidCache.setBlank, hu]
  · have hmem := findBlank_mem c.blanks p hu
    have hnone : mapGet c.uids (findBlank c.blanks p) = none := by
      by_contra hcon
      have := h.disjoint _ hcon
      exact (mapGet_eq_none _ _).1 this p hmem
    simp [uidCache.setBlank, hu, hnone]

theorem inv_setBlank (c c1 : uidCache) (p id : String) (h : Inv c)
    (hs : c.setBlank p id = .ok c1) : Inv c1 := by
  rw [setBlank_eq c p id h] at hs
  injection hs with hs
  subst hs
  by_cases hu : findBlank c.blanks p = ""
  · simp only [hu, if_true]; exact h
  · simp only [hu, if_false]
    refine ⟨?_, ?_, ?_, ?_⟩
    · exact List.Nodup.sublist (List.Sublist.map _ (List.filter_sublist _)) h.keys
    · exact List.Nodup.sublist (List.Sublist.map _ (List.filter_sublist _)) h.vals
    · intro v b hb
      exact h.minted v b ((mem_mapDelete _ _ _).1 hb).1
    · intro v hv
      simp only at hv ⊢
      rw [mapGet_mapDelete]
      by_cases hvu : findBlank c.blanks p = v
      · simp [hvu]
      · simp only [hvu, if_false]
        rw [mapGet_mapSet] at hv
        simp only [hvu, if_false] at hv
        exact h.disjoint v hv

theorem inv_call (c c1 : uidCache) (x : Call) (h : Inv c) (hs : c.call x = .ok c1) :
    Inv c1 := by
  cases x with
  | get u =>
    simp only [uidCache.call, Except.ok.injEq] at hs
    subst hs
    exact inv_get c u h
  | anonymous =>
    simp only [uidCache.call, Except.ok.injEq] at hs
    subst hs
    exact inv_anonymous c h
  | setBlank p id => exact inv_setBlank c c1 p id h hs

theorem run_cons (c : uidCache) (x : Call) (rest : List Call) (c2 : uidCache)
    (h : c.run (x :: rest) = .ok c2) : ∃ c1, c.call x = .ok c1 ∧ c1.run rest = .ok c2 := by
  simp only [uidCache.run] at h
  cases hc : c.call x with
  | error e => simp [hc] at h
  | ok c1 =>
    simp only [hc] at h
    exact ⟨c1, rfl, h⟩

theorem inv_run (calls : List Call) : ∀ (c c1 : uidCache), Inv c → c.run calls = .ok c1 →
    Inv c1 := by
  induction calls with
  | nil =>
    intro c c1 h hs
    simp only [uidCache.run, Except.ok.injEq] at hs
    subst hs
    exact h
  | cons x rest ih =>
    intro c c1 h hs
    obtain ⟨c', hc, hr⟩ := run_cons c x rest c1 hs
    exact ih c' c1 (inv_call c c' x h hc) hr

theorem inv_of_reachable (c : uidCache) (h : Reachable c) : Inv c := by
  obtain ⟨calls, hc⟩ := h
  exact inv_run calls _ _ inv_empty hc

theorem run_append (xs ys : List Call) : ∀ (c c1 c2 : uidCache), c.run xs = .ok c1 →
    c1.run ys = .ok c2 → c.run (xs ++ ys) = .ok c2 := by
  induction xs with
  | nil =>
    intro c c1 c2 h1 h2
    simp only [uidCache.run, Except.ok.injEq] at h1
    subst h1
    exact h2
  | cons x rest ih =>
    intro c c1 c2 h1 h2
    obtain ⟨c', hc, hr⟩ := run_cons c x rest c1 h1
    simp only [List.cons_append, uidCache.run, hc]
    exact ih c' c1 c2 hr h2

/-! ## Runs of the cache -/

theorem call_ok (c : uidCache) (x : Call) (h : Inv c) : ∃ c1, c.call x = .ok c1 := by
  cases x with
  | get u => exact ⟨_, rfl⟩
  | anonymous => exact ⟨_, rfl⟩
  | setBlank p id => exact ⟨_, setBlank_eq c p id h⟩

theorem run_ok (calls : List Call) : ∀ (c : uidCache), Inv c → ∃ c1, c.run calls = .ok c1 := by
  induction calls with
  | nil => intro c _; exact ⟨c, rfl⟩
  | cons x rest ih =>
    intro c h
    obtain ⟨c1, hc⟩ := call_ok c x h
    obtain ⟨c2, hr⟩ := ih c1 (inv_call c c1 x h hc)
    exact ⟨c2, by simp only [uidCache.run, hc, hr]⟩

theorem get_uids (c : uidCache) (u : String) : (c.get u).2.uids = c.uids := by
  unfold uidCache.get
  split
  · rfl
  · split <;> rfl

theorem get_latestBlank_le (c : uidCache) (u : String) :
    c.latestBlank ≤ (c.get u).2.latestBlank := by
  unfold uidCache.get
  split
  · exact Nat.le_refl _
  · split
    · exact Nat.le_refl _
    · exact Nat.le_succ _

/-- A resolved URL keeps its uid through every call. -/
theorem call_keeps_uid (c c1 : uidCache) (x : Call) (u v : String) (h : Inv c)
    (hu : mapGet c.uids u = some v) (hs : c.call x = .ok c1) : mapGet c1.uids u = some v := by
  cases x with
  | get w =>
    simp only [uidCache.call, Except.ok.injEq] at hs
    subst hs
    rw [get_uids]; exact hu
  | anonymous =>
    simp only [uidCache.call, Except.ok.injEq] at hs
    subst hs
    exact hu
  | setBlank p id =>
    simp only [uidCache.call] at hs
    rw [setBlank_eq c p id h] at hs
    injection hs with hs
    subst hs
    by_cases hf : findBlank c.blanks p = ""
    · simp only [hf, if_true]; exact hu
    · simp only [hf, if_false]
      rw [mapGet_mapSet]
      have hne : findBlank c.blanks p ≠ u := by
        intro he
        have hmem := findBlank_mem c.blanks p hf
        rw [he] at hmem
        have := h.disjoint u (by rw [hu]; simp)
        exact (mapGet_eq_none _ _).1 this p hmem
      simp only [hne, if_false]
      exact hu

theorem run_keeps_uid (calls : List Call) : ∀ (c c1 : uidCache) (u v : String), Inv c →
    mapGet c.uids u = some v → c.run calls = .ok c1 → mapGet c1.uids u = some v := by
  induction calls with
  | nil =>
    intro c c1 u v _ hu hs
    simp only [uidCache.run, Except.ok.injEq] at hs
    subst hs
    exact hu
  | cons x rest ih =>
    intro c c1 u v h hu hs
    obtain ⟨c', hc, hr⟩ := run_cons c x rest c1 hs
    exact ih c' c1 u v (inv_call c c' x h hc) (call_keeps_uid c c' x u v h hu hc) hr

/-- A pending URL keeps its placeholder through every call that is not
`setBlank` on that placeholder. -/
theorem call_keeps_blank (c c1 : uidCache) (x : Call) (u p : String) (h : Inv c)
    (hu : mapGet c.uids u = none) (hb : mapGet c.blanks u = some p)
    (hx : x.resolves p = false) (hs : c.call x = .ok c1) :
    mapGet c1.uids u = none ∧ mapGet c1.blanks u = some p := by
  cases x with
  | get w =>
    simp only [uidCache.call, Except.ok.injEq] at hs
    subst hs
    refine ⟨by rw [get_uids]; exact hu, ?_⟩
    cases h1 : mapGet c.uids w with
    | some v => rw [get_of_uid c w v h1]; exact hb
    | none =>
      cases h2 : mapGet c.blanks w with
      | some v => rw [get_of_blank c w v h1 h2]; exact hb
      | none =>
        rw [get_of_new c w h1 h2]
        simp only
        rw [mapGet_append, hb]
  | anonymous =>
    simp only [uidCache.call, Except.ok.injEq] at hs
    subst hs
    exact ⟨hu, hb⟩
  | setBlank q id =>
    simp only [uidCache.call] at hs
    rw [setBlank_eq c q id h] at hs
    injection hs with hs
    subst hs
    simp only [Call.resolves, decide_eq_false_iff_not] at hx
    by_cases hf : findBlank c.blanks q = ""
    · simp only [hf, if_true]; exact ⟨hu, hb⟩
    · simp only [hf, if_false]
      have hne : findBlank c.blanks q ≠ u := by
        intro he
        have hmem := findBlank_mem c.blanks q hf
        rw [he] at hmem
        have := mem_imp_mapGet c.blanks u q h.keys hmem
        rw [hb] at this
        injection this with this
        exact hx this.symm
      rw [mapGet_mapSet, mapGet_mapDelete]
      simp only [hne, if_false]
      exact ⟨hu, hb⟩

theorem run_keeps_blank (calls : List Call) : ∀ (c c1 : uidCache) (u p : String), Inv c →
    mapGet c.uids u = none → mapGet c.blanks u = some p →
    (∀ x ∈ calls, x.resolves p = false) → c.run calls = .ok c1 →
    mapGet c1.uids u = none ∧ mapGet c1.blanks u = some p := by
  induction calls with
  | nil =>
    intro c c1 u p _ hu hb _ hs
    simp only [uidCache.run, Except.ok.injEq] at hs
    subst hs
    exact ⟨hu, hb⟩
  | cons x rest ih =>
    intro c c1 u p h hu hb hx hs
    obtain ⟨c', hc, hr⟩ := run_cons c x rest c1 hs
    have hk := call_keeps_blank c c' x u p h hu hb (hx x (List.mem_cons_self _ _)) hc
    exact ih c' c1 u p (inv_call c c' x h hc) hk.1 hk.2
      (fun y hy => hx y (List.mem_cons_of_mem _ hy)) hr

/-- After `get` the URL is known to the cache under the returned identifier. -/
theorem get_records (c : uidCache) (u : String) :
    mapGet (c.get u).2.uids u = some (c.get u).1 ∨
    (mapGet (c.get u).2.uids u = none ∧ mapGet (c.get u).2.blanks u = some (c.get u).1) := by
  cases h1 : mapGet c.uids u with
  | some v => rw [get_of_uid c u v h1]; exact Or.inl h1
  | none =>
    cases h2 : mapGet c.blanks u with
    | some v => rw [get_of_blank c u v h1 h2]; exact Or.inr ⟨h1, h2⟩
    | none =>
      rw [get_of_new c u h1 h2]
      refine Or.inr ⟨h1, ?_⟩
      simp only
      rw [mapGet_append, h2]
      simp [mapGet]

/-- An identifier minted no later than `n` that no URL holds stays free in every
later state. -/
theorem call_keeps_free (c c1 : uidCache) (x : Call) (n : Nat)
    (hn : n ≤ c.latestBlank) (hf : ∀ u, (u, blankName n) ∉ c.blanks)
    (h : Inv c) (hs : c.call x = .ok c1) :
    n ≤ c1.latestBlank ∧ ∀ u, (u, blankName n) ∉ c1.blanks := by
  cases x with
  | get w =>
    simp only [uidCache.call, Except.ok.injEq] at hs
    subst hs
    refine ⟨Nat.le_trans hn (get_latestBlank_le c w), ?_⟩
    cases h1 : mapGet c.uids w with
    | some v => rw [get_of_uid c w v h1]; exact hf
    | none =>
      cases h2 : mapGet c.blanks w with
      | some v => rw [get_of_blank c w v h1 h2]; exact hf
      | none =>
        rw [get_of_new c w h1 h2]
        intro u hu
        simp only [List.mem_append, List.mem_singleton, Prod.mk.injEq] at hu
        rcases hu with hu | hu
        · exact hf u hu
        · have := blankName_injective _ _ hu.2
          omega
  | anonymous =>
    simp only [uidCache.call, Except.ok.injEq] at hs
    subst hs
    exact ⟨Nat.le_succ_of_le hn, hf⟩
  | setBlank q id =>
    simp only [uidCache.call] at hs
    rw [setBlank_eq c q id h] at hs
    injection hs with hs
    subst hs
    by_cases hq : findBlank c.blanks q = ""
    · simp only [hq, if_true]; exact ⟨hn, hf⟩
    · simp only [hq, if_false]
      exact ⟨hn, fun u hu => hf u ((mem_mapDelete _ _ _).1 hu).1⟩

theorem run_keeps_free (calls : List Call) : ∀ (c c1 : uidCache) (n : Nat),
    n ≤ c.latestBlank → (∀ u, (u, blankName n) ∉ c.blanks) → Inv c → c.run calls = .ok c1 →
    ∀ u, (u, blankName n) ∉ c1.blanks := by
  induction calls with
  | nil =>
    intro c c1 n _ hf _ hs
    simp only [uidCache.run, Except.ok.injEq] at hs
    subst hs
    exact hf
  | cons x rest ih =>
    intro c c1 n hn hf h hs
    obtain ⟨c', hc, hr⟩ := run_cons c x rest c1 hs
    have hk := call_keeps_free c c' x n hn hf h hc
    exact ih c' c1 n hk.1 hk.2 (inv_call c c' x h hc) hr

/-! ## The claims about the uid cache -/

/-- For a URL other than the empty string: once `setBlank` is called on the
placeholder a pending URL holds, every later `get` of that URL returns the uid,
whatever calls come in between. -/
theorem get_after_setBlank (c : uidCache) (u p id : String) (h : Reachable c)
    (hu : u ≠ "") (hp : mapGet c.blanks u = some p) (calls : List Call) :
    ∃ c1 c2, c.setBlank p id = .ok c1 ∧ c1.run calls = .ok c2 ∧ c2.get u = (id, c2) := by
  have hi := inv_of_reachable c h
  have hmem := mapGet_mem _ _ _ hp
  have hf : findBlank c.blanks p = u := findBlank_of_mem c.blanks u p hi.vals hmem
  have hs := setBlank_eq c p id hi
  rw [hf] at hs
  simp only [hu, if_false] at hs
  have hi1 := inv_setBlank c _ p id hi hs
  obtain ⟨c2, hr⟩ := run_ok calls _ hi1
  refine ⟨_, c2, hs, hr, ?_⟩
  have h1 : mapGet (mapSet c.uids u id) u = some id := by
    rw [mapGet_mapSet]; simp
  exact get_of_uid c2 u id (run_keeps_uid calls _ c2 u id hi1 h1 hr)

/-- C1, at the empty URL: `get("")` on the empty cache returns the placeholder
`_:1`; `setBlank("_:1", "0x3f")` then returns without touching the cache, because
the loop result `""` is read as "no URL found", and a later `get("")` still
returns the placeholder `_:1` and not `0x3f`. -/
theorem C1_empty_url_never_resolved :
    (uidCache.empty.get "").1 = "_:1" ∧
    (uidCache.empty.get "").2.setBlank "_:1" "0x3f" = .ok (uidCache.empty.get "").2 ∧
    uidCache.empty.run [.get "", .setBlank "_:1" "0x3f"]
      = .ok { uids := [], blanks := [("", "_:1")], latestBlank := 1 } ∧
    (uidCache.get { uids := [], blanks := [("", "_:1")], latestBlank := 1 } "").1 = "_:1" :=
  ⟨rfl, rfl, rfl, rfl⟩

/-- C2: in a reachable cache, for a URL `u` that is not resolved, the identifier
returned by `get(u)` is returned again by a second `get(u)` after any sequence of
`get`, `anonymous` and `setBlank` calls in which no `setBlank` is on that
identifier; the sequence always runs to its end. -/
theorem C2_get_stable_until_resolved (c : uidCache) (u : String) (calls : List Call)
    (h : Reachable c) (hu : mapGet c.uids u = none)
    (hc : ∀ x ∈ calls, x.resolves (c.get u).1 = false) :
    ∃ c1, (c.get u).2.run calls = .ok c1 ∧ (c1.get u).1 = (c.get u).1 := by
  have hi := inv_get c u (inv_of_reachable c h)
  obtain ⟨c1, hr⟩ := run_ok calls _ hi
  refine ⟨c1, hr, ?_⟩
  rcases get_records c u with h1 | ⟨h1, h2⟩
  · rw [get_uids, hu] at h1
    cases h1
  · have hk := run_keeps_blank calls _ c1 u _ hi h1 h2 hc hr
    rw [get_of_blank c1 u _ hk.1 hk.2]

/-- C2 at a concrete run: `/type/5/` stays pending while another URL is resolved. -/
theorem C2_get_stable_until_resolved_witness :
    ∃ c1, (uidCache.empty.get "/type/5/").2.run
        [.get "/pokemon/1/", .anonymous, .setBlank "_:2" "0x3f", .get "/type/5/"] = .ok c1 ∧
      (c1.get "/type/5/").1 = (uidCache.empty.get "/type/5/").1 :=
  C2_get_stable_until_resolved uidCache.empty "/type/5/"
    [.get "/pokemon/1/", .anonymous, .setBlank "_:2" "0x3f", .get "/type/5/"]
    ⟨[], rfl⟩ rfl (by decide)

/-- C3: in a reachable cache no URL is a key of both `uids` and `blanks`, and a
URL that is a key of `uids` is, after every further sequence of calls (which
always runs to its end), still a key of `uids` and not a key of `blanks`. -/
theorem C3_resolved_excludes_pending (c : uidCache) (h : Reachable c) :
    (∀ u, ¬ ((mapGet c.uids u).isSome = true ∧ (mapGet c.blanks u).isSome = true)) ∧
    ∀ (u : String) (calls : List Call), (mapGet c.uids u).isSome = true →
      ∃ c1, c.run calls = .ok c1 ∧
        (mapGet c1.uids u).isSome = true ∧ (mapGet c1.blanks u).isSome = false := by
  have hi := inv_of_reachable c h
  constructor
  · intro u ⟨h1, h2⟩
    have := hi.disjoint u (by intro hn; rw [hn] at h1; cases h1)
    rw [this] at h2
    cases h2
  · intro u calls hu
    obtain ⟨c1, hr⟩ := run_ok calls c hi
    obtain ⟨v, hv⟩ := Option.isSome_iff_exists.1 hu
    have h1 := run_keeps_uid calls c c1 u v hi hv hr
    have hi1 := inv_run calls c c1 hi hr
    refine ⟨c1, hr, by rw [h1]; rfl, ?_⟩
    rw [hi1.disjoint u (by rw [h1]; simp)]
    rfl

/-- C3 at the cache with `/type/5/` resolved and `/pokemon/1/` pending. -/
theorem C3_resolved_excludes_pending_witness :
    (∀ u, ¬ ((mapGet [("/type/5/", "0x3f")] u).isSome = true ∧
        (mapGet [("/pokemon/1/", "_:2")] u).isSome = true)) ∧
    ∀ (u : String) (calls : List Call), (mapGet [("/type/5/", "0x3f")] u).isSome = true →
      ∃ c1, uidCache.run ⟨[("/type/5/", "0x3f")], [("/pokemon/1/", "_:2")], 2⟩ calls = .ok c1 ∧
        (mapGet c1.uids u).isSome = true ∧ (mapGet c1.blanks u).isSome = false :=
  C3_resolved_excludes_pending ⟨[("/type/5/", "0x3f")], [("/pokemon/1/", "_:2")], 2⟩
    ⟨[.get "/type/5/", .get "/pokemon/1/", .setBlank "_:1" "0x3f"], rfl⟩

/-- In a reachable cache `setBlank` never ends in `log.Fatalf`: the URL it finds
is a key of `blanks`, so it is not a key of `uids`, and the comparison with the
old uid is never made. -/
theorem setBlank_never_fatal (c : uidCache) (p id : String) (h : Reachable c) :
    ∃ c1, c.setBlank p id = .ok c1 :=
  ⟨_, setBlank_eq c p id (inv_of_reachable c h)⟩

/-- C4, at a concrete run: `get("/type/5/")` returns `_:1`, `setBlank("_:1",
"0x3f")` resolves the URL, and `setBlank("_:1", "0x40")` with a different uid
returns normally and leaves the cache as it was, with `/type/5/` still bound to
`0x3f`; it does not end in `log.Fatalf`. -/
theorem C4_second_uid_not_fatal :
    (uidCache.empty.get "/type/5/").1 = "_:1" ∧
    uidCache.empty.run [.get "/type/5/", .setBlank "_:1" "0x3f"]
      = .ok { uids := [("/type/5/", "0x3f")], blanks := [], latestBlank := 1 } ∧
    uidCache.setBlank { uids := [("/type/5/", "0x3f")], blanks := [], latestBlank := 1 }
        "_:1" "0x40"
      = .ok { uids := [("/type/5/", "0x3f")], blanks := [], latestBlank := 1 } :=
  ⟨rfl, rfl, rfl⟩

/-- C8: in a reachable cache `anonymous` leaves `uids` and `blanks` as they are
and advances `latestBlank` by one; the identifier it returns is not the value of
any URL in `blanks`, and after every further sequence of calls (which always runs
to its end) it still is not, and `setBlank` on it returns the cache unchanged. -/
theorem C8_anonymous_never_a_url_blank (c : uidCache) (h : Reachable c) :
    c.anonymous.2.uids = c.uids ∧ c.anonymous.2.blanks = c.blanks ∧
    c.anonymous.2.latestBlank = c.latestBlank + 1 ∧
    (∀ u, mapGet c.blanks u ≠ some c.anonymous.1) ∧
    ∀ calls : List Call, ∃ c1, c.anonymous.2.run calls = .ok c1 ∧
      (∀ u, mapGet c1.blanks u ≠ some c.anonymous.1) ∧
      ∀ id, c1.setBlank c.anonymous.1 id = .ok c1 := by
  have hi := inv_of_reachable c h
  have hi1 := inv_anonymous c hi
  have hfree : ∀ u, (u, blankName (c.latestBlank + 1)) ∉ c.blanks := by
    intro u hu
    obtain ⟨k, hk1, hk2⟩ := hi.minted u _ hu
    have := blankName_injective _ _ hk2
    omega
  refine ⟨rfl, rfl, rfl, fun u hu => hfree u (mapGet_mem _ _ _ hu), ?_⟩
  intro calls
  obtain ⟨c1, hr⟩ := run_ok calls _ hi1
  have hf1 := run_keeps_free calls c.anonymous.2 c1 (c.latestBlank + 1) (Nat.le_refl _)
    hfree hi1 hr
  refine ⟨c1, hr, fun u hu => hf1 u (mapGet_mem _ _ _ hu), ?_⟩
  intro id
  have hnone : findBlank c1.blanks c.anonymous.1 = "" := findBlank_of_not_mem _ _ hf1
  simp [uidCache.setBlank, hnone]

/-- C8 at the cache in which `/type/5/` holds the placeholder `_:1`. -/
theorem C8_anonymous_never_a_url_blank_witness :
    (uidCache.anonymous ⟨[], [("/type/5/", "_:1")], 1⟩).2.uids = [] ∧
    (uidCache.anonymous ⟨[], [("/type/5/", "_:1")], 1⟩).2.blanks = [("/type/5/", "_:1")] ∧
    (uidCache.anonymous ⟨[], [("/type/5/", "_:1")], 1⟩).2.latestBlank = 1 + 1 ∧
    (∀ u, mapGet [("/type/5/", "_:1")] u ≠
      some (uidCache.anonymous ⟨[], [("/type/5/", "_:1")], 1⟩).1) ∧
    ∀ calls : List Call, ∃ c1,
      (uidCache.anonymous ⟨[], [("/type/5/", "_:1")], 1⟩).2.run calls = .ok c1 ∧
      (∀ u, mapGet c1.blanks u ≠ some (uidCache.anonymous ⟨[], [("/type/5/", "_:1")], 1⟩).1) ∧
      ∀ id, c1.setBlank (uidCache.anonymous ⟨[], [("/type/5/", "_:1")], 1⟩).1 id = .ok c1 :=
  C8_anonymous_never_a_url_blank ⟨[], [("/type/5/", "_:1")], 1⟩ ⟨[.get "/type/5/"], rfl⟩

/-- C9: in a reachable cache a call `setBlank(p, id)` returns normally, and the
same call made again right after it returns normally and leaves `uids`, `blanks`
and `latestBlank` exactly as the first call left them. -/
theorem C9_setBlank_twice (c : uidCache) (p id : String) (h : Reachable c) :
    ∃ c1, c.setBlank p id = .ok c1 ∧ c1.setBlank p id = .ok c1 := by
  have hi := inv_of_reachable c h
  have hs := setBlank_eq c p id hi
  refine ⟨_, hs, ?_⟩
  by_cases hf : findBlank c.blanks p = ""
  · simp only [hf, if_true]
    simp [uidCache.setBlank, hf]
  · simp only [hf, if_false]
    have hmem := findBlank_mem c.blanks p hf
    have hgone : findBlank (mapDelete c.blanks (findBlank c.blanks p)) p = "" := by
      apply findBlank_of_not_mem
      intro u hu
      have hu1 := (mem_mapDelete _ _ _).1 hu
      have := findBlank_of_mem c.blanks u p hi.vals hu1.1
      exact hu1.2 this.symm
    simp [uidCache.setBlank, hgone]

/-- C9 at the cache in which `/type/5/` holds the placeholder `_:1`. -/
theorem C9_setBlank_twice_witness :
    ∃ c1, uidCache.setBlank ⟨[], [("/type/5/", "_:1")], 1⟩ "_:1" "0x3f" = .ok c1 ∧
      c1.setBlank "_:1" "0x3f" = .ok c1 :=
  C9_setBlank_twice ⟨[], [("/type/5/", "_:1")], 1⟩ "_:1" "0x3f" ⟨[.get "/type/5/"], rfl⟩

/-! ## One object of the walk -/

theorem mapGet_delete_names {β : Type} (t : List (String × β)) (k : String) (hk : k ≠ "names") :
    mapGet (mapDelete t "names") k = mapGet t k := by
  rw [mapGet_mapDelete]
  simp [Ne.symm hk]

theorem assignUid_url (c : uidCache) (t : List (String × JSON)) (u : String)
    (h : mapGet t "url" = some (.str u)) :
    assignUid c t = .ok (mapSet (mapDelete t "names") "uid" (.str (c.get u).1), (c.get u).2) := by
  have h1 : mapGet (mapDelete t "names") "url" = some (.str u) := by
    rw [mapGet_delete_names _ _ (by decide)]; exact h
  simp only [assignUid, h1]
  rw [mapGet_mapSet]
  simp

theorem assignUid_bad (c : uidCache) (t : List (String × JSON)) (v : JSON)
    (h : mapGet t "url" = some v) (hv : v.notString) :
    assignUid c t = .error .urlNotString := by
  have h1 : mapGet (mapDelete t "names") "url" = some v := by
    rw [mapGet_delete_names _ _ (by decide)]; exact h
  cases v <;> first | exact False.elim hv | simp [assignUid, h1]

theorem assignUid_keep (c : uidCache) (t : List (String × JSON)) (w : JSON)
    (h : mapGet t "url" = none) (hw : mapGet t "uid" = some w) :
    assignUid c t = .ok (mapDelete t "names", c) := by
  have h1 : mapGet (mapDelete t "names") "url" = none := by
    rw [mapGet_delete_names _ _ (by decide)]; exact h
  have h2 : mapGet (mapDelete t "names") "uid" = some w := by
    rw [mapGet_delete_names _ _ (by decide)]; exact hw
  simp [assignUid, h1, h2]

theorem assignUid_anonymous (c : uidCache) (t : List (String × JSON))
    (h : mapGet t "url" = none) (hw : mapGet t "uid" = none) :
    assignUid c t = .ok (mapSet (mapDelete t "names") "uid" (.str c.anonymous.1),
      c.anonymous.2) := by
  have h1 : mapGet (mapDelete t "names") "url" = none := by
    rw [mapGet_delete_names _ _ (by decide)]; exact h
  have h2 : mapGet (mapDelete t "names") "uid" = none := by
    rw [mapGet_delete_names _ _ (by decide)]; exact hw
  simp [assignUid, h1, h2]

theorem notString_or_str (v : JSON) : v.notString ∨ ∃ s, v = .str s := by
  cases v <;> simp [JSON.notString]

/-- The four ways `assignUid` can go, by the `url` and `uid` fields of the object. -/
theorem assignUid_cases (c : uidCache) (t : List (String × JSON)) :
    (∃ u, mapGet t "url" = some (.str u) ∧
      assignUid c t = .ok (mapSet (mapDelete t "names") "uid" (.str (c.get u).1), (c.get u).2)) ∨
    (∃ v, mapGet t "url" = some v ∧ v.notString ∧ assignUid c t = .error .urlNotString) ∨
    (∃ w, mapGet t "url" = none ∧ mapGet t "uid" = some w ∧
      assignUid c t = .ok (mapDelete t "names", c)) ∨
    (mapGet t "url" = none ∧ mapGet t "uid" = none ∧
      assignUid c t = .ok (mapSet (mapDelete t "names") "uid" (.str c.anonymous.1),
        c.anonymous.2)) := by
  cases h : mapGet t "url" with
  | some v =>
    rcases notString_or_str v with hv | ⟨s, rfl⟩
    · exact Or.inr (Or.inl ⟨v, rfl, hv, assignUid_bad c t v h hv⟩)
    · exact Or.inl ⟨s, rfl, assignUid_url c t s h⟩
  | none =>
    cases hw : mapGet t "uid" with
    | some w => exact Or.inr (Or.inr (Or.inl ⟨w, rfl, rfl, assignUid_keep c t w h hw⟩))
    | none => exact Or.inr (Or.inr (Or.inr ⟨rfl, rfl, assignUid_anonymous c t h hw⟩))

/-- Every field the walk finds after `assignUid` is a field of the input that
the walk descends into, or holds a string. -/
theorem assignUid_mem (c c1 : uidCache) (t t1 : List (String × JSON))
    (h : assignUid c t = .ok (t1, c1)) (k : String) (v : JSON) (hm : (k, v) ∈ t1) :
    ((k, v) ∈ t ∧ walked t k) ∨ ∃ s, v = .str s := by
  rcases assignUid_cases c t with ⟨u, hu, ha⟩ | ⟨v', _, _, ha⟩ | ⟨w, hu, hw, ha⟩ | ⟨hu, hw, ha⟩
  · rw [ha] at h
    simp only [Except.ok.injEq, Prod.mk.injEq] at h
    rw [← h.1, mem_mapSet, mem_mapDelete] at hm
    rcases hm with ⟨⟨h1, h2⟩, h3⟩ | h1
    · exact Or.inl ⟨h1, h2, fun hk => absurd hk h3⟩
    · simp only [Prod.mk.injEq] at h1
      exact Or.inr ⟨_, h1.2⟩
  · rw [ha] at h; cases h
  · rw [ha] at h
    simp only [Except.ok.injEq, Prod.mk.injEq] at h
    rw [← h.1, mem_mapDelete] at hm
    exact Or.inl ⟨hm.1, hm.2, fun _ => hu⟩
  · rw [ha] at h
    simp only [Except.ok.injEq, Prod.mk.injEq] at h
    rw [← h.1, mem_mapSet, mem_mapDelete] at hm
    rcases hm with ⟨⟨h1, h2⟩, _⟩ | h1
    · exact Or.inl ⟨h1, h2, fun _ => hu⟩
    · simp only [Prod.mk.injEq] at h1
      exact Or.inr ⟨_, h1.2⟩

/-- Every field of the input that the walk descends into is still there after
`assignUid`. -/
theorem assignUid_mem_of_walked (c c1 : uidCache) (t t1 : List (String × JSON))
    (h : assignUid c t = .ok (t1, c1)) (k : String) (v : JSON) (hm : (k, v) ∈ t)
    (hw : walked t k) : (k, v) ∈ t1 := by
  rcases assignUid_cases c t with ⟨u, hu, ha⟩ | ⟨v', _, _, ha⟩ | ⟨w, hu, _, ha⟩ | ⟨hu, hn, ha⟩
  · rw [ha] at h
    simp only [Except.ok.injEq, Prod.mk.injEq] at h
    rw [← h.1, mem_mapSet, mem_mapDelete]
    refine Or.inl ⟨⟨hm, hw.1⟩, ?_⟩
    intro hk
    have := hw.2 hk
    rw [hu] at this
    cases this
  · rw [ha] at h; cases h
  · rw [ha] at h
    simp only [Except.ok.injEq, Prod.mk.injEq] at h
    rw [← h.1, mem_mapDelete]
    exact ⟨hm, hw.1⟩
  · rw [ha] at h
    simp only [Except.ok.injEq, Prod.mk.injEq] at h
    rw [← h.1, mem_mapSet, mem_mapDelete]
    refine Or.inl ⟨⟨hm, hw.1⟩, ?_⟩
    intro hk
    apply (mapGet_eq_none _ _).1 hn v
    rw [← hk]
    exact hm

/-! ## The two loops -/

theorem forFields_cons_ok (f : uidCache → JSON → Except Failure (JSON × uidCache))
    (c c2 : uidCache) (k : String) (v : JSON) (rest t1 : List (String × JSON))
    (h : forFields f c ((k, v) :: rest) = .ok (t1, c2)) :
    ∃ v1 c1 rest1, f c v = .ok (v1, c1) ∧ forFields f c1 rest = .ok (rest1, c2) ∧
      t1 = (k, v1) :: rest1 := by
  simp only [forFields] at h
  cases hf : f c v with
  | error e => simp [hf] at h
  | ok r =>
    obtain ⟨v1, c1⟩ := r
    simp only [hf] at h
    cases hr : forFields f c1 rest with
    | error e => simp [hr] at h
    | ok r2 =>
      obtain ⟨rest1, c3⟩ := r2
      simp only [hr, Except.ok.injEq, Prod.mk.injEq] at h
      exact ⟨v1, c1, rest1, rfl, by rw [hr, h.2], h.1.symm⟩

theorem forElems_cons_ok (f : uidCache → JSON → Except Failure (JSON × uidCache))
    (c c2 : uidCache) (v : JSON) (rest l1 : List JSON)
    (h : forElems f c (v :: rest) = .ok (l1, c2)) :
    ∃ v1 c1 rest1, f c v = .ok (v1, c1) ∧ forElems f c1 rest = .ok (rest1, c2) ∧
      l1 = v1 :: rest1 := by
  simp only [forElems] at h
  cases hf : f c v with
  | error e => simp [hf] at h
  | ok r =>
    obtain ⟨v1, c1⟩ := r
    simp only [hf] at h
    cases hr : forElems f c1 rest with
    | error e => simp [hr] at h
    | ok r2 =>
      obtain ⟨rest1, c3⟩ := r2
      simp only [hr, Except.ok.injEq, Prod.mk.injEq] at h
      exact ⟨v1, c1, rest1, rfl, by rw [hr, h.2], h.1.symm⟩

theorem forFields_error (f : uidCache → JSON → Except Failure (JSON × uidCache))
    (e : Failure) (t : List (String × JSON)) : ∀ c, forFields f c t = .error e →
    ∃ k v c1, (k, v) ∈ t ∧ f c1 v = .error e := by
  induction t with
  | nil => intro c h; simp [forFields] at h
  | cons x rest ih =>
    intro c h
    obtain ⟨k, v⟩ := x
    simp only [forFields] at h
    cases hf : f c v with
    | error e1 =>
      simp only [hf, Except.error.injEq] at h
      exact ⟨k, v, c, List.mem_cons_self _ _, by rw [hf, h]⟩
    | ok r =>
      obtain ⟨v1, c1⟩ := r
      simp only [hf] at h
      cases hr : forFields f c1 rest with
      | error e1 =>
        simp only [hr, Except.error.injEq] at h
        obtain ⟨k2, v2, c2, hm, h2⟩ := ih c1 (by rw [hr, h])
        exact ⟨k2, v2, c2, List.mem_cons_of_mem _ hm, h2⟩
      | ok r2 => simp [hr] at h

theorem forElems_error (f : uidCache → JSON → Except Failure (JSON × uidCache))
    (e : Failure) (l : List JSON) : ∀ c, forElems f c l = .error e →
    ∃ v c1, v ∈ l ∧ f c1 v = .error e := by
  induction l with
  | nil => intro c h; simp [forElems] at h
  | cons v rest ih =>
    intro c h
    simp only [forElems] at h
    cases hf : f c v with
    | error e1 =>
      simp only [hf, Except.error.injEq] at h
      exact ⟨v, c, List.mem_cons_self _ _, by rw [hf, h]⟩
    | ok r =>
      obtain ⟨v1, c1⟩ := r
      simp only [hf] at h
      cases hr : forElems f c1 rest with
      | error e1 =>
        simp only [hr, Except.error.injEq] at h
        obtain ⟨v2, c2, hm, h2⟩ := ih c1 (by rw [hr, h])
        exact ⟨v2, c2, List.mem_cons_of_mem _ hm, h2⟩
      | ok r2 => simp [hr] at h

/-- A loop over fields of which one always fails ends in an error. -/
theorem forFields_fails (f : uidCache → JSON → Except Failure (JSON × uidCache))
    (k : String) (v : JSON) (hv : ∀ c, ∃ e, f c v = .error e) (t : List (String × JSON)) :
    ∀ c, (k, v) ∈ t → ∃ e, forFields f c t = .error e := by
  induction t with
  | nil => intro c h; simp at h
  | cons x rest ih =>
    intro c h
    obtain ⟨k0, v0⟩ := x
    simp only [forFields]
    cases hf : f c v0 with
    | error e1 => exact ⟨e1, rfl⟩
    | ok r =>
      obtain ⟨v1, c1⟩ := r
      rcases List.mem_cons.1 h with h1 | h1
      · simp only [Prod.mk.injEq] at h1
        obtain ⟨e, he⟩ := hv c
        rw [h1.2, hf] at he
        cases he
      · obtain ⟨e, he⟩ := ih c1 h1
        exact ⟨e, by simp only [he]⟩

theorem forElems_fails (f : uidCache → JSON → Except Failure (JSON × uidCache))
    (v : JSON) (hv : ∀ c, ∃ e, f c v = .error e) (l : List JSON) :
    ∀ c, v ∈ l → ∃ e, forElems f c l = .error e := by
  induction l with
  | nil => intro c h; simp at h
  | cons v0 rest ih =>
    intro c h
    simp only [forElems]
    cases hf : f c v0 with
    | error e1 => exact ⟨e1, rfl⟩
    | ok r =>
      obtain ⟨v1, c1⟩ := r
      rcases List.mem_cons.1 h with h1 | h1
      · obtain ⟨e, he⟩ := hv c
        rw [h1, hf] at he
        cases he
      · obtain ⟨e, he⟩ := ih c1 h1
        exact ⟨e, by simp only [he]⟩

/-! ## The recursion bound and the failure of the type assertion -/

theorem depth_le_depthFields (t : List (String × JSON)) (k : String) (v : JSON)
    (h : (k, v) ∈ t) : v.depth ≤ depthFields t := by
  induction t with
  | nil => simp at h
  | cons x rest ih =>
    obtain ⟨k0, v0⟩ := x
    simp only [depthFields]
    rcases List.mem_cons.1 h with h1 | h1
    · simp only [Prod.mk.injEq] at h1
      rw [h1.2]
      exact Nat.le_max_left _ _
    · exact Nat.le_trans (ih h1) (Nat.le_max_right _ _)

theorem depth_le_depthElems (l : List JSON) (v : JSON) (h : v ∈ l) :
    v.depth ≤ depthElems l := by
  induction l with
  | nil => simp at h
  | cons v0 rest ih =>
    simp only [depthElems]
    rcases List.mem_cons.1 h with h1 | h1
    · rw [h1]
      exact Nat.le_max_left _ _
    · exact Nat.le_trans (ih h1) (Nat.le_max_right _ _)

theorem preprocessN_str (n : Nat) (c : uidCache) (s : String) :
    preprocessN n c (.str s) = .ok (.str s, c) := by
  cases n <;> rfl

theorem preprocessN_obj (n : Nat) (c : uidCache) (t : List (String × JSON)) :
    preprocessN (n + 1) c (.obj t) =
      match assignUid c t with
      | .error e => .error e
      | .ok (t1, c1) =>
        match forFields (preprocessN n) c1 t1 with
        | .error e => .error e
        | .ok (t2, c2) => .ok (.obj t2, c2) := by
  simp only [preprocessN]

theorem preprocessN_arr (n : Nat) (c : uidCache) (l : List JSON) :
    preprocessN (n + 1) c (.arr l) =
      match forElems (preprocessN n) c l with
      | .error e => .error e
      | .ok (l2, c2) => .ok (.arr l2, c2) := by
  simp only [preprocessN]

theorem assignUid_error (c : uidCache) (t : List (String × JSON)) (e : Failure)
    (h : assignUid c t = .error e) :
    e = .urlNotString ∧ ∃ v, mapGet t "url" = some v ∧ v.notString := by
  rcases assignUid_cases c t with ⟨u, _, ha⟩ | ⟨v, hv, hn, ha⟩ | ⟨w, _, _, ha⟩ | ⟨_, _, ha⟩
  · rw [ha] at h; cases h
  · rw [ha] at h
    injection h with h
    exact ⟨h.symm, v, hv, hn⟩
  · rw [ha] at h; cases h
  · rw [ha] at h; cases h

theorem assignUid_depth (c c1 : uidCache) (t t1 : List (String × JSON))
    (h : assignUid c t = .ok (t1, c1)) (k : String) (v : JSON) (hm : (k, v) ∈ t1) :
    v.depth ≤ depthFields t := by
  rcases assignUid_mem c c1 t t1 h k v hm with ⟨h1, _⟩ | ⟨s, rfl⟩
  · exact depth_le_depthFields t k v h1
  · exact Nat.zero_le _

/-- With the depth of the document as the bound, the recursion never runs out. -/
theorem preprocessN_fuel (n : Nat) : ∀ (c : uidCache) (d : JSON), d.depth ≤ n →
    preprocessN n c d ≠ .error .fuel := by
  induction n with
  | zero =>
    intro c d hd
    cases d <;> simp [preprocessN, JSON.depth] at hd ⊢
  | succ n ih =>
    intro c d hd
    cases d with
    | null => simp [preprocessN]
    | bool b => simp [preprocessN]
    | num x => simp [preprocessN]
    | str s => simp [preprocessN]
    | arr l =>
      rw [preprocessN_arr]
      simp only [JSON.depth, Nat.add_le_add_iff_right] at hd
      cases hf : forElems (preprocessN n) c l with
      | ok r => simp
      | error e =>
        simp only [ne_eq, Except.error.injEq]
        intro he
        subst he
        obtain ⟨v, c1, hm, hv⟩ := forElems_error _ _ _ _ hf
        exact ih c1 v (Nat.le_trans (depth_le_depthElems l v hm) hd) hv
    | obj t =>
      rw [preprocessN_obj]
      simp only [JSON.depth, Nat.add_le_add_iff_right] at hd
      cases ha : assignUid c t with
      | error e =>
        simp only [ne_eq, Except.error.injEq]
        intro he
        have := (assignUid_error c t e ha).1
        rw [he] at this
        cases this
      | ok r =>
        obtain ⟨t1, c1⟩ := r
        simp only
        cases hf : forFields (preprocessN n) c1 t1 with
        | ok r => simp
        | error e =>
          simp only [ne_eq, Except.error.injEq]
          intro he
          subst he
          obtain ⟨k, v, c2, hm, hv⟩ := forFields_error _ _ _ _ hf
          exact ih c2 v (Nat.le_trans (assignUid_depth c c1 t t1 ha k v hm) hd) hv

theorem within_str (live : List (String × JSON) → String → Prop) (s : String) (x : JSON)
    (h : Within live (.str s) x) : x = .str s := by
  cases h
  rfl

/-- A failed run means an object the walk reaches has a `url` that is not a string. -/
theorem badUrl_of_error (n : Nat) : ∀ (c : uidCache) (d : JSON) (e : Failure),
    d.depth ≤ n → preprocessN n c d = .error e → BadUrl walked d := by
  induction n with
  | zero =>
    intro c d e hd h
    cases d <;> simp [preprocessN, JSON.depth] at hd h
  | succ n ih =>
    intro c d e hd h
    cases d with
    | null => simp [preprocessN] at h
    | bool b => simp [preprocessN] at h
    | num x => simp [preprocessN] at h
    | str s => simp [preprocessN] at h
    | arr l =>
      rw [preprocessN_arr] at h
      simp only [JSON.depth, Nat.add_le_add_iff_right] at hd
      cases hf : forElems (preprocessN n) c l with
      | ok r => simp [hf] at h
      | error e1 =>
        obtain ⟨v, c1, hm, hv⟩ := forElems_error _ _ _ _ hf
        obtain ⟨t, w, hw, hu, hn⟩ := ih c1 v e1 (Nat.le_trans (depth_le_depthElems l v hm) hd) hv
        exact ⟨t, w, Within.elem l v _ hm hw, hu, hn⟩
    | obj t =>
      rw [preprocessN_obj] at h
      simp only [JSON.depth, Nat.add_le_add_iff_right] at hd
      cases ha : assignUid c t with
      | error e1 =>
        obtain ⟨_, v, hv, hn⟩ := assignUid_error c t e1 ha
        exact ⟨t, v, Within.root _, hv, hn⟩
      | ok r =>
        obtain ⟨t1, c1⟩ := r
        simp only [ha] at h
        cases hf : forFields (preprocessN n) c1 t1 with
        | ok r => simp [hf] at h
        | error e1 =>
          obtain ⟨k, v, c2, hm, hv⟩ := forFields_error _ _ _ _ hf
          rcases assignUid_mem c c1 t t1 ha k v hm with ⟨h1, h2⟩ | ⟨s, rfl⟩
          · obtain ⟨t2, w, hw, hu, hn⟩ :=
              ih c2 v e1 (Nat.le_trans (depth_le_depthFields t k v h1) hd) hv
            exact ⟨t2, w, Within.field t k v _ h1 h2 hw, hu, hn⟩
          · rw [preprocessN_str] at hv
            cases hv

/-- An object the walk reaches with a `url` that is not a string makes the run fail. -/
theorem error_of_within (d x : JSON) (hw : Within walked d x) :
    ∀ (t : List (String × JSON)) (v : JSON), x = .obj t → mapGet t "url" = some v →
    v.notString → ∀ (n : Nat) (c : uidCache), d.depth ≤ n → ∃ e, preprocessN n c d = .error e := by
  induction hw with
  | root d =>
    intro t v hx hu hn n c hd
    subst hx
    cases n with
    | zero => simp [JSON.depth] at hd
    | succ n =>
      rw [preprocessN_obj, assignUid_bad c t v hu hn]
      exact ⟨_, rfl⟩
  | field t0 k v0 x hm hl _ ih =>
    intro t v hx hu hn n c hd
    cases n with
    | zero => simp [JSON.depth] at hd
    | succ n =>
      simp only [JSON.depth, Nat.add_le_add_iff_right] at hd
      rw [preprocessN_obj]
      cases ha : assignUid c t0 with
      | error e => exact ⟨e, rfl⟩
      | ok r =>
        obtain ⟨t1, c1⟩ := r
        simp only
        have hm1 := assignUid_mem_of_walked c c1 t0 t1 ha k v0 hm hl
        have hv0 : ∀ c', ∃ e, preprocessN n c' v0 = .error e := fun c' =>
          ih t v hx hu hn n c' (Nat.le_trans (depth_le_depthFields t0 k v0 hm) hd)
        obtain ⟨e, he⟩ := forFields_fails (preprocessN n) k v0 hv0 t1 c1 hm1
        exact ⟨e, by simp only [he]⟩
  | elem l v0 x hm _ ih =>
    intro t v hx hu hn n c hd
    cases n with
    | zero => simp [JSON.depth] at hd
    | succ n =>
      simp only [JSON.depth, Nat.add_le_add_iff_right] at hd
      rw [preprocessN_arr]
      have hv0 : ∀ c', ∃ e, preprocessN n c' v0 = .error e := fun c' =>
        ih t v hx hu hn n c' (Nat.le_trans (depth_le_depthElems l v0 hm) hd)
      obtain ⟨e, he⟩ := forElems_fails (preprocessN n) v0 hv0 l c hm
      exact ⟨e, by simp only [he]⟩

theorem preprocess_error_iff (c : uidCache) (d : JSON) :
    preprocess c d = .error .urlNotString ↔ BadUrl walked d := by
  constructor
  · intro h
    exact badUrl_of_error d.depth c d _ (Nat.le_refl _) h
  · intro ⟨t, v, hw, hu, hn⟩
    obtain ⟨e, he⟩ := error_of_within d _ hw t v rfl hu hn d.depth c (Nat.le_refl _)
    cases e with
    | urlNotString => exact he
    | fuel => exact absurd he (preprocessN_fuel d.depth c d (Nat.le_refl _))

theorem within_mono (live live' : List (String × JSON) → String → Prop)
    (h : ∀ t k, live t k → live' t k) (d x : JSON) (hw : Within live d x) :
    Within live' d x := by
  induction hw with
  | root d => exact Within.root d
  | field t k v x hm hl _ ih => exact Within.field t k v x hm (h t k hl) ih
  | elem l v x hm _ ih => exact Within.elem l v x hm ih

/-- C10, as the code has it: `preprocess` returns on every document (it never
runs out of its recursion bound), and it fails in the assertion `url.(string)`
exactly when some object that lies neither under a `names` field nor under the
`uid` field of an object with a `url` field has a `url` that is not a string. -/
theorem C10_preprocess_fails_iff_walked_bad_url (c : uidCache) (d : JSON) :
    preprocess c d ≠ .error .fuel ∧
    (preprocess c d = .error .urlNotString ↔ BadUrl walked d) :=
  ⟨preprocessN_fuel d.depth c d (Nat.le_refl _), preprocess_error_iff c d⟩

/-- C10, as stated, fails: the object under `uid` has the number 5 as its `url`
and is not under a `names` field, but `uid` is overwritten before the walk
descends, so `preprocess` returns normally and "fails if and only if" is false. -/
theorem C10_overwritten_uid_is_not_walked :
    BadUrl notNames (.obj [("url", .str "/type/5/"), ("uid", .obj [("url", .num 5)])]) ∧
    preprocess uidCache.empty (.obj [("url", .str "/type/5/"), ("uid", .obj [("url", .num 5)])])
      = .ok (.obj [("url", .str "/type/5/"), ("uid", .str "_:1")],
          { uids := [], blanks := [("/type/5/", "_:1")], latestBlank := 1 }) ∧
    ¬ ((∃ e, preprocess uidCache.empty
          (.obj [("url", .str "/type/5/"), ("uid", .obj [("url", .num 5)])]) = .error e) ↔
        BadUrl notNames (.obj [("url", .str "/type/5/"), ("uid", .obj [("url", .num 5)])])) := by
  have hb : BadUrl notNames
      (.obj [("url", .str "/type/5/"), ("uid", .obj [("url", .num 5)])]) :=
    ⟨[("url", .num 5)], .num 5,
      Within.field _ "uid" (.obj [("url", .num 5)]) _ (by simp)
        (show "uid" ≠ "names" by decide) (Within.root _),
      rfl, trivial⟩
  refine ⟨hb, rfl, ?_⟩
  intro hiff
  obtain ⟨e, he⟩ := hiff.2 hb
  cases he

/-! ## Objects with a URL take their uid from the cache -/

theorem extends_refl (c : uidCache) : Extends c c := fun _ _ h => h

theorem extends_trans (c c1 c2 : uidCache) (h1 : Extends c c1) (h2 : Extends c1 c2) :
    Extends c c2 := fun u v h => h2 u v (h1 u v h)

theorem extends_anonymous (c : uidCache) : Extends c c.anonymous.2 := fun _ _ h => h

theorem get_of_known (c : uidCache) (u v : String) (h : known c u = some v) :
    c.get u = (v, c) := by
  unfold known at h
  cases h1 : mapGet c.uids u with
  | some w =>
    simp only [h1, Option.some.injEq] at h
    rw [← h]
    exact get_of_uid c u w h1
  | none =>
    simp only [h1] at h
    exact get_of_blank c u v h1 h

theorem known_get (c : uidCache) (u : String) : known (c.get u).2 u = some (c.get u).1 := by
  unfold known
  rcases get_records c u with h1 | ⟨h1, h2⟩
  · rw [h1]
  · rw [h1]; exact h2

theorem extends_get (c : uidCache) (w : String) : Extends c (c.get w).2 := by
  intro u v h
  cases h1 : mapGet c.uids w with
  | some x => rw [get_of_uid c w x h1]; exact h
  | none =>
    cases h2 : mapGet c.blanks w with
    | some x => rw [get_of_blank c w x h1 h2]; exact h
    | none =>
      rw [get_of_new c w h1 h2]
      unfold known at h ⊢
      simp only
      cases h3 : mapGet c.uids u with
      | some y => simp only [h3] at h ⊢; exact h
      | none =>
        simp only [h3] at h ⊢
        rw [mapGet_append, h]

theorem uidsFromCache_mono (c c1 : uidCache) (d : JSON) (h : UidsFromCache c d)
    (he : Extends c c1) : UidsFromCache c1 d := by
  intro t u hw hu
  obtain ⟨v, hv, hk⟩ := h t u hw hu
  exact ⟨v, hv, he u v hk⟩

theorem preprocessN_str_inv (n : Nat) (c c1 : uidCache) (d : JSON) (s : String)
    (h : preprocessN n c d = .ok (.str s, c1)) : d = .str s := by
  cases n with
  | zero =>
    cases d <;> simp [preprocessN] at h ⊢
    exact h.1
  | succ n =>
    cases d with
    | null => simp [preprocessN] at h
    | bool b => simp [preprocessN] at h
    | num x => simp [preprocessN] at h
    | str s1 => simp [preprocessN] at h ⊢; exact h.1
    | arr l =>
      rw [preprocessN_arr] at h
      cases hf : forElems (preprocessN n) c l with
      | error e => simp [hf] at h
      | ok r => simp [hf] at h
    | obj t =>
      rw [preprocessN_obj] at h
      cases ha : assignUid c t with
      | error e => simp [ha] at h
      | ok r =>
        obtain ⟨t1, c1⟩ := r
        simp only [ha] at h
        cases hf : forFields (preprocessN n) c1 t1 with
        | error e => simp [hf] at h
        | ok r => simp [hf] at h

/-- The loop keeps the keys: a key is bound after the loop exactly when it was
bound before, to the result of the body on the old value. -/
theorem forFields_mapGet (f : uidCache → JSON → Except Failure (JSON × uidCache))
    (t : List (String × JSON)) : ∀ (c c2 : uidCache) (t2 : List (String × JSON)),
    forFields f c t = .ok (t2, c2) → ∀ k,
      (mapGet t k = none ∧ mapGet t2 k = none) ∨
      ∃ v v2 ca cb, mapGet t k = some v ∧ mapGet t2 k = some v2 ∧ f ca v = .ok (v2, cb) := by
  induction t with
  | nil =>
    intro c c2 t2 h k
    simp only [forFields, Except.ok.injEq, Prod.mk.injEq] at h
    rw [← h.1]
    exact Or.inl ⟨rfl, rfl⟩
  | cons x rest ih =>
    intro c c2 t2 h k
    obtain ⟨k0, v0⟩ := x
    obtain ⟨v1, c1, rest1, hf, hr, rfl⟩ := forFields_cons_ok f c c2 k0 v0 rest t2 h
    by_cases hk : k0 = k
    · exact Or.inr ⟨v0, v1, c, c1, by simp [mapGet, hk], by simp [mapGet, hk], hf⟩
    · simp only [mapGet, hk, if_false]
      exact ih c1 c2 rest1 hr k

theorem forFields_uidsFromCache (f : uidCache → JSON → Except Failure (JSON × uidCache))
    (hf : ∀ c v v1 c1, f c v = .ok (v1, c1) → Extends c c1 ∧ UidsFromCache c1 v1)
    (t : List (String × JSON)) : ∀ (c c2 : uidCache) (t2 : List (String × JSON)),
    forFields f c t = .ok (t2, c2) →
      Extends c c2 ∧ ∀ k v2, (k, v2) ∈ t2 → UidsFromCache c2 v2 := by
  induction t with
  | nil =>
    intro c c2 t2 h
    simp only [forFields, Except.ok.injEq, Prod.mk.injEq] at h
    rw [← h.1, ← h.2]
    exact ⟨extends_refl c, fun k v2 hm => by simp at hm⟩
  | cons x rest ih =>
    intro c c2 t2 h
    obtain ⟨k0, v0⟩ := x
    obtain ⟨v1, c1, rest1, h0, hr, rfl⟩ := forFields_cons_ok f c c2 k0 v0 rest t2 h
    obtain ⟨he0, hq0⟩ := hf c v0 v1 c1 h0
    obtain ⟨he1, hq1⟩ := ih c1 c2 rest1 hr
    refine ⟨extends_trans c c1 c2 he0 he1, ?_⟩
    intro k v2 hm
    rcases List.mem_cons.1 hm with hm1 | hm1
    · simp only [Prod.mk.injEq] at hm1
      rw [hm1.2]
      exact uidsFromCache_mono c1 c2 v1 hq0 he1
    · exact hq1 k v2 hm1

theorem forElems_uidsFromCache (f : uidCache → JSON → Except Failure (JSON × uidCache))
    (hf : ∀ c v v1 c1, f c v = .ok (v1, c1) → Extends c c1 ∧ UidsFromCache c1 v1)
    (l : List JSON) : ∀ (c c2 : uidCache) (l2 : List JSON),
    forElems f c l = .ok (l2, c2) →
      Extends c c2 ∧ ∀ v2, v2 ∈ l2 → UidsFromCache c2 v2 := by
  induction l with
  | nil =>
    intro c c2 l2 h
    simp only [forElems, Except.ok.injEq, Prod.mk.injEq] at h
    rw [← h.1, ← h.2]
    exact ⟨extends_refl c, fun v2 hm => by simp at hm⟩
  | cons v0 rest ih =>
    intro c c2 l2 h
    obtain ⟨v1, c1, rest1, h0, hr, rfl⟩ := forElems_cons_ok f c c2 v0 rest l2 h
    obtain ⟨he0, hq0⟩ := hf c v0 v1 c1 h0
    obtain ⟨he1, hq1⟩ := ih c1 c2 rest1 hr
    refine ⟨extends_trans c c1 c2 he0 he1, ?_⟩
    intro v2 hm
    rcases List.mem_cons.1 hm with hm1 | hm1
    · rw [hm1]
      exact uidsFromCache_mono c1 c2 v1 hq0 he1
    · exact hq1 v2 hm1

/-- What `assignUid` leaves for a URL-bearing object: the cache extends the old
one, and an object with a string `url` afterwards has the cache's identifier for
that URL as its `uid`. -/
theorem assignUid_uidsFromCache (c c1 : uidCache) (t t1 : List (String × JSON))
    (h : assignUid c t = .ok (t1, c1)) :
    Extends c c1 ∧ ∀ u, mapGet t1 "url" = some (.str u) →
      ∃ v, mapGet t1 "uid" = some (.str v) ∧ known c1 u = some v := by
  rcases assignUid_cases c t with ⟨u, hu, ha⟩ | ⟨v', _, _, ha⟩ | ⟨w, hu, _, ha⟩ | ⟨hu, _, ha⟩
  · rw [ha] at h
    simp only [Except.ok.injEq, Prod.mk.injEq] at h
    rw [← h.1, ← h.2]
    refine ⟨extends_get c u, ?_⟩
    intro u1 hu1
    rw [mapGet_mapSet] at hu1
    simp only [show ¬ ("uid" = "url") by decide, if_false] at hu1
    rw [mapGet_delete_names _ _ (by decide), hu] at hu1
    simp only [Option.some.injEq, JSON.str.injEq] at hu1
    subst hu1
    refine ⟨(c.get u).1, ?_, known_get c u⟩
    rw [mapGet_mapSet]
    simp
  · rw [ha] at h; cases h
  · rw [ha] at h
    simp only [Except.ok.injEq, Prod.mk.injEq] at h
    rw [← h.1, ← h.2]
    refine ⟨extends_refl c, ?_⟩
    intro u1 hu1
    rw [mapGet_delete_names _ _ (by decide), hu] at hu1
    cases hu1
  · rw [ha] at h
    simp only [Except.ok.injEq, Prod.mk.injEq] at h
    rw [← h.1, ← h.2]
    refine ⟨extends_anonymous c, ?_⟩
    intro u1 hu1
    rw [mapGet_mapSet] at hu1
    simp only [show ¬ ("uid" = "url") by decide, if_false] at hu1
    rw [mapGet_delete_names _ _ (by decide), hu] at hu1
    cases hu1

theorem within_obj_inv (live : List (String × JSON) → String → Prop)
    (t : List (String × JSON)) (x : JSON) (h : Within live (.obj t) x) :
    x = .obj t ∨ ∃ k v, (k, v) ∈ t ∧ Within live v x := by
  cases h with
  | root => exact Or.inl rfl
  | field _ k v _ hm _ hw => exact Or.inr ⟨k, v, hm, hw⟩

theorem within_arr_inv (live : List (String × JSON) → String → Prop)
    (l : List JSON) (x : JSON) (h : Within live (.arr l) x) :
    x = .arr l ∨ ∃ v, v ∈ l ∧ Within live v x := by
  cases h with
  | root => exact Or.inl rfl
  | elem _ v _ hm hw => exact Or.inr ⟨v, hm, hw⟩

theorem preprocessN_uidsFromCache (n : Nat) : ∀ (c c2 : uidCache) (d d2 : JSON),
    preprocessN n c d = .ok (d2, c2) → Extends c c2 ∧ UidsFromCache c2 d2 := by
  induction n with
  | zero =>
    intro c c2 d d2 h
    cases d <;> simp [preprocessN] at h <;> obtain ⟨rfl, rfl⟩ := h <;>
      exact ⟨extends_refl c, fun t u hw _ => by cases hw⟩
  | succ n ih =>
    intro c c2 d d2 h
    cases d with
    | null =>
      simp [preprocessN] at h; obtain ⟨rfl, rfl⟩ := h
      exact ⟨extends_refl c, fun t u hw _ => by cases hw⟩
    | bool b =>
      simp [preprocessN] at h; obtain ⟨rfl, rfl⟩ := h
      exact ⟨extends_refl c, fun t u hw _ => by cases hw⟩
    | num x =>
      simp [preprocessN] at h; obtain ⟨rfl, rfl⟩ := h
      exact ⟨extends_refl c, fun t u hw _ => by cases hw⟩
    | str s =>
      simp [preprocessN] at h; obtain ⟨rfl, rfl⟩ := h
      exact ⟨extends_refl c, fun t u hw _ => by cases hw⟩
    | arr l =>
      rw [preprocessN_arr] at h
      cases hf : forElems (preprocessN n) c l with
      | error e => simp [hf] at h
      | ok r =>
        obtain ⟨l2, c3⟩ := r
        simp only [hf, Except.ok.injEq, Prod.mk.injEq] at h
        obtain ⟨rfl, rfl⟩ := h
        obtain ⟨he, hq⟩ := forElems_uidsFromCache (preprocessN n)
          (fun c v v1 c1 h => ih c c1 v v1 h) l c c3 l2 hf
        refine ⟨he, ?_⟩
        intro t u hw hu
        rcases within_arr_inv _ _ _ hw with hx | ⟨v, hm, hw1⟩
        · cases hx
        · exact hq v hm t u hw1 hu
    | obj t0 =>
      rw [preprocessN_obj] at h
      cases ha : assignUid c t0 with
      | error e => simp [ha] at h
      | ok r =>
        obtain ⟨t1, c1⟩ := r
        simp only [ha] at h
        cases hf : forFields (preprocessN n) c1 t1 with
        | error e => simp [hf] at h
        | ok r =>
          obtain ⟨t2, c3⟩ := r
          simp only [hf, Except.ok.injEq, Prod.mk.injEq] at h
          obtain ⟨rfl, rfl⟩ := h
          obtain ⟨hea, hqa⟩ := assignUid_uidsFromCache c c1 t0 t1 ha
          obtain ⟨he, hq⟩ := forFields_uidsFromCache (preprocessN n)
            (fun c v v1 c1 h => ih c c1 v v1 h) t1 c1 c3 t2 hf
          refine ⟨extends_trans c c1 c3 hea he, ?_⟩
          intro t u hw hu
          rcases within_obj_inv _ _ _ hw with hx | ⟨k, v, hm, hw1⟩
          · simp only [JSON.obj.injEq] at hx
            subst hx
            have hurl : mapGet t1 "url" = some (.str u) := by
              rcases forFields_mapGet (preprocessN n) t1 c1 c3 t hf "url" with
                ⟨_, h2⟩ | ⟨v, v2, ca, cb, h1, h2, h3⟩
              · rw [h2] at hu; cases hu
              · rw [h2] at hu
                simp only [Option.some.injEq] at hu
                subst hu
                rw [h1, preprocessN_str_inv n ca cb v u h3]
            obtain ⟨w, hw1, hw2⟩ := hqa u hurl
            refine ⟨w, ?_, he u w hw2⟩
            rcases forFields_mapGet (preprocessN n) t1 c1 c3 t hf "uid" with
              ⟨h1, _⟩ | ⟨v, v2, ca, cb, h1, h2, h3⟩
            · rw [h1] at hw1; cases hw1
            · rw [h1] at hw1
              simp only [Option.some.injEq] at hw1
              subst hw1
              rw [preprocessN_str] at h3
              simp only [Except.ok.injEq, Prod.mk.injEq] at h3
              rw [h2, ← h3.1]
          · exact hq k v hm t u hw1 hu

/-- C5: for a document in which every `url` field holds a string, `preprocess`
returns, and every object of the resulting tree, at any nesting depth, that has
a `url` field `u` has as `uid` the identifier `get(u)` returns on the resulting
cache, whatever `uid` the input had; so two objects with the same `url` have the
same `uid`. -/
theorem C5_url_objects_take_the_cache_uid (c : uidCache) (d : JSON)
    (hs : ∀ t v, Within anyField d (.obj t) → mapGet t "url" = some v → ∃ s, v = .str s) :
    ∃ d2 c2, preprocess c d = .ok (d2, c2) ∧
      (∀ t u, Within anyField d2 (.obj t) → mapGet t "url" = some (.str u) →
        mapGet t "uid" = some (.str (c2.get u).1)) ∧
      (∀ t1 t2 u, Within anyField d2 (.obj t1) → Within anyField d2 (.obj t2) →
        mapGet t1 "url" = some (.str u) → mapGet t2 "url" = some (.str u) →
        mapGet t1 "uid" = mapGet t2 "uid") := by
  have hgood : ¬ BadUrl walked d := by
    intro ⟨t, v, hw, hu, hn⟩
    obtain ⟨s, rfl⟩ := hs t v (within_mono walked anyField (fun _ _ _ => trivial) d _ hw) hu
    exact hn
  cases hp : preprocess c d with
  | error e =>
    cases e with
    | urlNotString => exact absurd ((preprocess_error_iff c d).1 hp) hgood
    | fuel => exact absurd hp (preprocessN_fuel d.depth c d (Nat.le_refl _))
  | ok r =>
    obtain ⟨d2, c2⟩ := r
    obtain ⟨_, hq⟩ := preprocessN_uidsFromCache d.depth c c2 d d2 hp
    have h1 : ∀ t u, Within anyField d2 (.obj t) → mapGet t "url" = some (.str u) →
        mapGet t "uid" = some (.str (c2.get u).1) := by
      intro t u hw hu
      obtain ⟨v, hv, hk⟩ := hq t u hw hu
      rw [get_of_known c2 u v hk]
      exact hv
    refine ⟨d2, c2, rfl, h1, ?_⟩
    intro t1 t2 u hw1 hw2 hu1 hu2
    rw [h1 t1 u hw1 hu1, h1 t2 u hw2 hu2]

/-! ## Objects without a URL get identifiers of their own -/

theorem at_nil (d : JSON) : d.at [] = some d := by
  cases d <;> rfl

theorem at_obj_key (t : List (String × JSON)) (k : String) (p : List Step) :
    (JSON.obj t).at (.key k :: p) =
      match mapGet t k with
      | some v => v.at p
      | none => none := by
  simp only [JSON.at]

theorem at_obj_index (t : List (String × JSON)) (i : Nat) (p : List Step) :
    (JSON.obj t).at (.index i :: p) = none := by
  simp only [JSON.at]

theorem at_arr_index (l : List JSON) (i : Nat) (p : List Step) :
    (JSON.arr l).at (.index i :: p) =
      match l[i]? with
      | some v => v.at p
      | none => none := by
  simp only [JSON.at]

theorem at_arr_key (l : List JSON) (k : String) (p : List Step) :
    (JSON.arr l).at (.key k :: p) = none := by
  simp only [JSON.at]

theorem at_str (s : String) (p : List Step) (t : List (String × JSON)) :
    (JSON.str s).at p ≠ some (.obj t) := by
  cases p <;> simp [JSON.at]

theorem at_fields_head (k0 : String) (v0 : JSON) (rest : List (String × JSON))
    (p : List Step) : (JSON.obj ((k0, v0) :: rest)).at (.key k0 :: p) = v0.at p := by
  simp [at_obj_key, mapGet]

theorem at_fields_tail (k0 k : String) (v0 : JSON) (rest : List (String × JSON))
    (p : List Step) (h : k0 ≠ k) :
    (JSON.obj ((k0, v0) :: rest)).at (.key k :: p) = (JSON.obj rest).at (.key k :: p) := by
  simp [at_obj_key, mapGet, h]

theorem at_elems_head (v0 : JSON) (rest : List JSON) (p : List Step) :
    (JSON.arr (v0 :: rest)).at (.index 0 :: p) = v0.at p := by
  simp [at_arr_index]

theorem at_elems_tail (v0 : JSON) (rest : List JSON) (i : Nat) (p : List Step) :
    (JSON.arr (v0 :: rest)).at (.index (i + 1) :: p) = (JSON.arr rest).at (.index i :: p) := by
  simp [at_arr_index]

theorem str_blankName_inj (a b : Nat) (x y : Option JSON)
    (hx : x = some (.str (blankName a))) (hy : y = some (.str (blankName b)))
    (h : x = y) : a = b := by
  rw [hx, hy] at h
  simp only [Option.some.injEq, JSON.str.injEq] at h
  exact blankName_injective a b h

theorem forFields_stampedBelow (f : uidCache → JSON → Except Failure (JSON × uidCache))
    (hf : ∀ c v v1 c1, f c v = .ok (v1, c1) → Stamped c c1 v v1)
    (t : List (String × JSON)) : ∀ (c c2 : uidCache) (t2 : List (String × JSON)),
    forFields f c t = .ok (t2, c2) → StampedBelow c c2 (.obj t) (.obj t2) := by
  induction t with
  | nil =>
    intro c c2 t2 h
    simp only [forFields, Except.ok.injEq, Prod.mk.injEq] at h
    rw [← h.1, ← h.2]
    refine ⟨Nat.le_refl _, ?_, ?_⟩
    · intro s p t t2 hin
      cases s <;> simp [JSON.at, mapGet] at hin
    · intro s p s1 q t t1 t2 t3 hin
      cases s <;> simp [JSON.at, mapGet] at hin
  | cons x rest ih =>
    intro c c2 t2 h
    obtain ⟨k0, v0⟩ := x
    obtain ⟨v1, c1, rest1, h0, hr, rfl⟩ := forFields_cons_ok f c c2 k0 v0 rest t2 h
    have H0 := hf c v0 v1 c1 h0
    have H1 := ih c1 c2 rest1 hr
    have hfresh : ∀ s p t t2, (JSON.obj ((k0, v0) :: rest)).at (s :: p) = some (.obj t) →
        unnamed t → (JSON.obj ((k0, v1) :: rest1)).at (s :: p) = some (.obj t2) →
        ∃ k, c.latestBlank < k ∧ k ≤ c2.latestBlank ∧
          mapGet t2 "uid" = some (.str (blankName k)) ∧
          ((∃ p1, s :: p = .key k0 :: p1) → k ≤ c1.latestBlank) ∧
          ((¬ ∃ p1, s :: p = .key k0 :: p1) → c1.latestBlank < k) := by
      intro s p t t2 hin hun hout
      cases s with
      | index i => rw [at_obj_index] at hin; cases hin
      | key k =>
        by_cases hk : k0 = k
        · subst hk
          rw [at_fields_head] at hin hout
          obtain ⟨a, ha1, ha2, ha3⟩ := H0.fresh p t t2 hin hun hout
          exact ⟨a, ha1, Nat.le_trans ha2 H1.le, ha3, fun _ => ha2,
            fun hne => absurd ⟨p, rfl⟩ hne⟩
        · rw [at_fields_tail _ _ _ _ _ hk] at hin hout
          obtain ⟨a, ha1, ha2, ha3⟩ := H1.fresh _ p t t2 hin hun hout
          refine ⟨a, Nat.lt_of_le_of_lt H0.le ha1, ha2, ha3, ?_, fun _ => ha1⟩
          intro ⟨p1, hp1⟩
          simp only [List.cons.injEq, Step.key.injEq] at hp1
          exact absurd hp1.1.symm hk
    refine ⟨Nat.le_trans H0.le H1.le, ?_, ?_⟩
    · intro s p t t2 hin hun hout
      obtain ⟨a, ha1, ha2, ha3, _⟩ := hfresh s p t t2 hin hun hout
      exact ⟨a, ha1, ha2, ha3⟩
    · intro s p s1 q t t1 t2 t3 hin hun hin1 hun1 hout hout1 heq
      obtain ⟨a, _, _, ha3, ha4, ha5⟩ := hfresh s p t t2 hin hun hout
      obtain ⟨b, _, _, hb3, hb4, hb5⟩ := hfresh s1 q t1 t3 hin1 hun1 hout1
      have hab := str_blankName_inj a b _ _ ha3 hb3 heq
      cases s with
      | index i => rw [at_obj_index] at hin; cases hin
      | key k =>
        cases s1 with
        | index i => rw [at_obj_index] at hin1; cases hin1
        | key k1 =>
          by_cases hk : k0 = k
          · by_cases hk1 : k0 = k1
            · subst hk
              subst hk1
              rw [at_fields_head] at hin hout hin1 hout1
              rw [H0.apart p q t t1 t2 t3 hin hun hin1 hun1 hout hout1 heq]
            · have h1 := ha4 ⟨p, by rw [hk]⟩
              have h2 := hb5 (by
                intro ⟨p1, hp1⟩
                simp only [List.cons.injEq, Step.key.injEq] at hp1
                exact hk1 hp1.1.symm)
              omega
          · by_cases hk1 : k0 = k1
            · have h1 := hb4 ⟨q, by rw [hk1]⟩
              have h2 := ha5 (by
                intro ⟨p1, hp1⟩
                simp only [List.cons.injEq, Step.key.injEq] at hp1
                exact hk hp1.1.symm)
              omega
            · rw [at_fields_tail _ _ _ _ _ hk] at hin hout
              rw [at_fields_tail _ _ _ _ _ hk1] at hin1 hout1
              exact H1.apart _ p _ q t t1 t2 t3 hin hun hin1 hun1 hout hout1 heq

theorem forElems_stampedBelow (f : uidCache → JSON → Except Failure (JSON × uidCache))
    (hf : ∀ c v v1 c1, f c v = .ok (v1, c1) → Stamped c c1 v v1)
    (l : List JSON) : ∀ (c c2 : uidCache) (l2 : List JSON),
    forElems f c l = .ok (l2, c2) → StampedBelow c c2 (.arr l) (.arr l2) := by
  induction l with
  | nil =>
    intro c c2 l2 h
    simp only [forElems, Except.ok.injEq, Prod.mk.injEq] at h
    rw [← h.1, ← h.2]
    refine ⟨Nat.le_refl _, ?_, ?_⟩
    · intro s p t t2 hin
      cases s <;> simp [JSON.at] at hin
    · intro s p s1 q t t1 t2 t3 hin
      cases s <;> simp [JSON.at] at hin
  | cons v0 rest ih =>
    intro c c2 l2 h
    obtain ⟨v1, c1, rest1, h0, hr, rfl⟩ := forElems_cons_ok f c c2 v0 rest l2 h
    have H0 := hf c v0 v1 c1 h0
    have H1 := ih c1 c2 rest1 hr
    have hfresh : ∀ s p t t2, (JSON.arr (v0 :: rest)).at (s :: p) = some (.obj t) →
        unnamed t → (JSON.arr (v1 :: rest1)).at (s :: p) = some (.obj t2) →
        ∃ k, c.latestBlank < k ∧ k ≤ c2.latestBlank ∧
          mapGet t2 "uid" = some (.str (blankName k)) ∧
          (s = .index 0 → k ≤ c1.latestBlank) ∧ (s ≠ .index 0 → c1.latestBlank < k) := by
      intro s p t t2 hin hun hout
      cases s with
      | key k => rw [at_arr_key] at hin; cases hin
      | index i =>
        cases i with
        | zero =>
          rw [at_elems_head] at hin hout
          obtain ⟨a, ha1, ha2, ha3⟩ := H0.fresh p t t2 hin hun hout
          exact ⟨a, ha1, Nat.le_trans ha2 H1.le, ha3, fun _ => ha2, fun hne => absurd rfl hne⟩
        | succ i =>
          rw [at_elems_tail] at hin hout
          obtain ⟨a, ha1, ha2, ha3⟩ := H1.fresh _ p t t2 hin hun hout
          refine ⟨a, Nat.lt_of_le_of_lt H0.le ha1, ha2, ha3, ?_, fun _ => ha1⟩
          intro hs
          simp at hs
    refine ⟨Nat.le_trans H0.le H1.le, ?_, ?_⟩
    · intro s p t t2 hin hun hout
      obtain ⟨a, ha1, ha2, ha3, _⟩ := hfresh s p t t2 hin hun hout
      exact ⟨a, ha1, ha2, ha3⟩
    · intro s p s1 q t t1 t2 t3 hin hun hin1 hun1 hout hout1 heq
      obtain ⟨a, _, _, ha3, ha4, ha5⟩ := hfresh s p t t2 hin hun hout
      obtain ⟨b, _, _, hb3, hb4, hb5⟩ := hfresh s1 q t1 t3 hin1 hun1 hout1
      have hab := str_blankName_inj a b _ _ ha3 hb3 heq
      cases s with
      | key k => rw [at_arr_key] at hin; cases hin
      | index i =>
        cases s1 with
        | key k => rw [at_arr_key] at hin1; cases hin1
        | index j =>
          cases i with
          | zero =>
            cases j with
            | zero =>
              rw [at_elems_head] at hin hout hin1 hout1
              rw [H0.apart p q t t1 t2 t3 hin hun hin1 hun1 hout hout1 heq]
            | succ j =>
              have h1 := ha4 rfl
              have h2 := hb5 (by simp)
              omega
          | succ i =>
            cases j with
            | zero =>
              have h1 := hb4 rfl
              have h2 := ha5 (by simp)
              omega
            | succ j =>
              rw [at_elems_tail] at hin hout hin1 hout1
              have := H1.apart _ p _ q t t1 t2 t3 hin hun hin1 hun1 hout hout1 heq
              simp only [List.cons.injEq, Step.index.injEq] at this
              rw [this.1, this.2]

theorem assignUid_le (c c1 : uidCache) (t t1 : List (String × JSON))
    (h : assignUid c t = .ok (t1, c1)) : c.latestBlank ≤ c1.latestBlank := by
  rcases assignUid_cases c t with ⟨u, _, ha⟩ | ⟨v, _, _, ha⟩ | ⟨w, _, _, ha⟩ | ⟨_, _, ha⟩
  · rw [ha] at h
    simp only [Except.ok.injEq, Prod.mk.injEq] at h
    rw [← h.2]
    exact get_latestBlank_le c u
  · rw [ha] at h; cases h
  · rw [ha] at h
    simp only [Except.ok.injEq, Prod.mk.injEq] at h
    rw [← h.2]
  · rw [ha] at h
    simp only [Except.ok.injEq, Prod.mk.injEq] at h
    rw [← h.2]
    exact Nat.le_succ _

/-- A key bound after `assignUid` is bound to the value it had in the input or
to a string. -/
theorem assignUid_mapGet (c c1 : uidCache) (t t1 : List (String × JSON))
    (h : assignUid c t = .ok (t1, c1)) (k : String) (v : JSON) (hk : mapGet t1 k = some v) :
    mapGet t k = some v ∨ ∃ s, v = .str s := by
  have hdel : ∀ w, mapGet (mapDelete t "names") k = some w → mapGet t k = some w := by
    intro w hw
    rw [mapGet_mapDelete] at hw
    by_cases hn : "names" = k
    · simp [hn] at hw
    · simpa [hn] using hw
  have hset : ∀ s w, mapGet (mapSet (mapDelete t "names") "uid" (.str s)) k = some w →
      mapGet t k = some w ∨ ∃ s1, w = .str s1 := by
    intro s w hw
    rw [mapGet_mapSet] at hw
    by_cases hu : "uid" = k
    · simp only [hu, if_true, Option.some.injEq] at hw
      exact Or.inr ⟨s, hw.symm⟩
    · simp only [hu, if_false] at hw
      exact Or.inl (hdel w hw)
  rcases assignUid_cases c t with ⟨u, _, ha⟩ | ⟨v', _, _, ha⟩ | ⟨w, _, _, ha⟩ | ⟨_, _, ha⟩
  · rw [ha] at h
    simp only [Except.ok.injEq, Prod.mk.injEq] at h
    rw [← h.1] at hk
    exact hset _ v hk
  · rw [ha] at h; cases h
  · rw [ha] at h
    simp only [Except.ok.injEq, Prod.mk.injEq] at h
    rw [← h.1] at hk
    exact Or.inl (hdel v hk)
  · rw [ha] at h
    simp only [Except.ok.injEq, Prod.mk.injEq] at h
    rw [← h.1] at hk
    exact hset _ v hk

/-- Below a key whose value ends up holding an object, the walk saw the value
the input had under that key. -/
theorem at_after_assignUid (n : Nat) (c c1 c2 : uidCache) (t t1 t2 : List (String × JSON))
    (ha : assignUid c t = .ok (t1, c1)) (hf : forFields (preprocessN n) c1 t1 = .ok (t2, c2))
    (s : Step) (p : List Step) (x : List (String × JSON))
    (hout : (JSON.obj t2).at (s :: p) = some (.obj x)) :
    (JSON.obj t1).at (s :: p) = (JSON.obj t).at (s :: p) := by
  cases s with
  | index i => rw [at_obj_index, at_obj_index]
  | key k =>
    rw [at_obj_key] at hout
    rcases forFields_mapGet (preprocessN n) t1 c1 c2 t2 hf k with
      ⟨_, h2⟩ | ⟨v, v2, ca, cb, h1, h2, h3⟩
    · rw [h2] at hout; cases hout
    · rw [h2] at hout
      simp only at hout
      rcases assignUid_mapGet c c1 t t1 ha k v h1 with h4 | ⟨s1, rfl⟩
      · rw [at_obj_key, at_obj_key, h1, h4]
      · rw [preprocessN_str] at h3
        simp only [Except.ok.injEq, Prod.mk.injEq] at h3
        rw [← h3.1] at hout
        exact absurd hout (at_str _ _ _)

/-- The root of the walk, when it has neither `url` nor `uid`, gets the first
identifier minted by the walk. -/
theorem root_stamp (n : Nat) (c c1 c2 : uidCache) (t t1 t2 : List (String × JSON))
    (ha : assignUid c t = .ok (t1, c1)) (hf : forFields (preprocessN n) c1 t1 = .ok (t2, c2))
    (hun : unnamed t) :
    c1.latestBlank = c.latestBlank + 1 ∧
      mapGet t2 "uid" = some (.str (blankName (c.latestBlank + 1))) := by
  rw [assignUid_anonymous c t hun.1 hun.2] at ha
  simp only [Except.ok.injEq, Prod.mk.injEq] at ha
  obtain ⟨ht1, hc1⟩ := ha
  refine ⟨by rw [← hc1]; rfl, ?_⟩
  have h1 : mapGet t1 "uid" = some (.str (blankName (c.latestBlank + 1))) := by
    rw [← ht1, mapGet_mapSet]
    simp [uidCache.anonymous]
  rcases forFields_mapGet (preprocessN n) t1 c1 c2 t2 hf "uid" with
    ⟨h2, _⟩ | ⟨v, v2, ca, cb, h2, h3, h4⟩
  · rw [h2] at h1; cases h1
  · rw [h2] at h1
    simp only [Option.some.injEq] at h1
    subst h1
    rw [preprocessN_str] at h4
    simp only [Except.ok.injEq, Prod.mk.injEq] at h4
    rw [h3, ← h4.1]

theorem stamped_obj (n : Nat) (c c1 c2 : uidCache) (t t1 t2 : List (String × JSON))
    (ha : assignUid c t = .ok (t1, c1)) (hf : forFields (preprocessN n) c1 t1 = .ok (t2, c2))
    (hb : StampedBelow c1 c2 (.obj t1) (.obj t2)) : Stamped c c2 (.obj t) (.obj t2) := by
  have hle := assignUid_le c c1 t t1 ha
  have hfresh : ∀ p x x2, (JSON.obj t).at p = some (.obj x) → unnamed x →
      (JSON.obj t2).at p = some (.obj x2) →
      ∃ k, c.latestBlank < k ∧ k ≤ c2.latestBlank ∧
        mapGet x2 "uid" = some (.str (blankName k)) ∧
        (p = [] → k = c.latestBlank + 1 ∧ c1.latestBlank = c.latestBlank + 1) ∧
        (p ≠ [] → c1.latestBlank < k) := by
    intro p x x2 hin hun hout
    cases p with
    | nil =>
      rw [at_nil] at hin hout
      simp only [Option.some.injEq, JSON.obj.injEq] at hin hout
      subst hin
      subst hout
      obtain ⟨h1, h2⟩ := root_stamp n c c1 c2 t t1 t2 ha hf hun
      refine ⟨c.latestBlank + 1, Nat.lt_succ_self _, ?_, h2, fun _ => ⟨rfl, h1⟩,
        fun hne => absurd rfl hne⟩
      rw [← h1]
      exact hb.le
    | cons s p =>
      rw [← at_after_assignUid n c c1 c2 t t1 t2 ha hf s p x2 hout] at hin
      obtain ⟨a, ha1, ha2, ha3⟩ := hb.fresh s p x x2 hin hun hout
      exact ⟨a, Nat.lt_of_le_of_lt hle ha1, ha2, ha3, fun hp => List.noConfusion hp,
        fun _ => ha1⟩
  refine ⟨Nat.le_trans hle hb.le, ?_, ?_⟩
  · intro p x x2 hin hun hout
    obtain ⟨a, ha1, ha2, ha3, _⟩ := hfresh p x x2 hin hun hout
    exact ⟨a, ha1, ha2, ha3⟩
  · intro p q x y x2 y2 hin hun hin1 hun1 hout hout1 heq
    obtain ⟨a, _, _, ha3, ha4, ha5⟩ := hfresh p x x2 hin hun hout
    obtain ⟨b, _, _, hb3, hb4, hb5⟩ := hfresh q y y2 hin1 hun1 hout1
    have hab := str_blankName_inj a b _ _ ha3 hb3 heq
    cases p with
    | nil =>
      cases q with
      | nil => rfl
      | cons s1 q =>
        have h1 := ha4 rfl
        have h2 := hb5 (by simp)
        omega
    | cons s p =>
      cases q with
      | nil =>
        have h1 := hb4 rfl
        have h2 := ha5 (by simp)
        omega
      | cons s1 q =>
        rw [← at_after_assignUid n c c1 c2 t t1 t2 ha hf s p x2 hout] at hin
        rw [← at_after_assignUid n c c1 c2 t t1 t2 ha hf s1 q y2 hout1] at hin1
        exact hb.apart s p s1 q x y x2 y2 hin hun hin1 hun1 hout hout1 heq

theorem stamped_arr (c c2 : uidCache) (l l2 : List JSON)
    (hb : StampedBelow c c2 (.arr l) (.arr l2)) : Stamped c c2 (.arr l) (.arr l2) := by
  refine ⟨hb.le, ?_, ?_⟩
  · intro p x x2 hin hun hout
    cases p with
    | nil => rw [at_nil] at hin; cases hin
    | cons s p => exact hb.fresh s p x x2 hin hun hout
  · intro p q x y x2 y2 hin hun hin1 hun1 hout hout1 heq
    cases p with
    | nil => rw [at_nil] at hin; cases hin
    | cons s p =>
      cases q with
      | nil => rw [at_nil] at hin1; cases hin1
      | cons s1 q => exact hb.apart s p s1 q x y x2 y2 hin hun hin1 hun1 hout hout1 heq

theorem stamped_leaf (c : uidCache) (d : JSON) (hd : ∀ p t, d.at p ≠ some (.obj t)) :
    Stamped c c d d :=
  ⟨Nat.le_refl _, fun p t _ hin => absurd hin (hd p t),
    fun p _ t _ _ _ hin => absurd hin (hd p t)⟩

theorem preprocessN_stamped (n : Nat) : ∀ (c c2 : uidCache) (d d2 : JSON),
    preprocessN n c d = .ok (d2, c2) → Stamped c c2 d d2 := by
  induction n with
  | zero =>
    intro c c2 d d2 h
    cases d <;> simp [preprocessN] at h <;> obtain ⟨rfl, rfl⟩ := h <;>
      exact stamped_leaf c _ (fun p t => by cases p <;> simp [JSON.at])
  | succ n ih =>
    intro c c2 d d2 h
    cases d with
    | null =>
      simp [preprocessN] at h; obtain ⟨rfl, rfl⟩ := h
      exact stamped_leaf c _ (fun p t => by cases p <;> simp [JSON.at])
    | bool b =>
      simp [preprocessN] at h; obtain ⟨rfl, rfl⟩ := h
      exact stamped_leaf c _ (fun p t => by cases p <;> simp [JSON.at])
    | num x =>
      simp [preprocessN] at h; obtain ⟨rfl, rfl⟩ := h
      exact stamped_leaf c _ (fun p t => by cases p <;> simp [JSON.at])
    | str s =>
      simp [preprocessN] at h; obtain ⟨rfl, rfl⟩ := h
      exact stamped_leaf c _ (fun p t => by cases p <;> simp [JSON.at])
    | arr l =>
      rw [preprocessN_arr] at h
      cases hf : forElems (preprocessN n) c l with
      | error e => simp [hf] at h
      | ok r =>
        obtain ⟨l2, c3⟩ := r
        simp only [hf, Except.ok.injEq, Prod.mk.injEq] at h
        obtain ⟨rfl, rfl⟩ := h
        exact stamped_arr c c3 l l2 (forElems_stampedBelow (preprocessN n)
          (fun c v v1 c1 h => ih c c1 v v1 h) l c c3 l2 hf)
    | obj t0 =>
      rw [preprocessN_obj] at h
      cases ha : assignUid c t0 with
      | error e => simp [ha] at h
      | ok r =>
        obtain ⟨t1, c1⟩ := r
        simp only [ha] at h
        cases hf : forFields (preprocessN n) c1 t1 with
        | error e => simp [hf] at h
        | ok r =>
          obtain ⟨t2, c3⟩ := r
          simp only [hf, Except.ok.injEq, Prod.mk.injEq] at h
          obtain ⟨rfl, rfl⟩ := h
          exact stamped_obj n c c1 c3 t0 t1 t2 ha hf (forFields_stampedBelow (preprocessN n)
            (fun c v v1 c1 h => ih c c1 v v1 h) t1 c1 c3 t2 hf)

/-- Two objects at different paths that had neither a `url` nor a `uid` field in
the input and are objects of the result carry `uid` strings that differ. -/
theorem remaining_anonymous_uids_differ (c c2 : uidCache) (d d2 : JSON) (p q : List Step)
    (t t1 t2 t3 : List (String × JSON)) (h : preprocess c d = .ok (d2, c2)) (hpq : p ≠ q)
    (hp : d.at p = some (.obj t)) (hq : d.at q = some (.obj t1))
    (htu : unnamed t) (htu1 : unnamed t1)
    (hp2 : d2.at p = some (.obj t2)) (hq2 : d2.at q = some (.obj t3)) :
    ∃ a b, mapGet t2 "uid" = some (.str a) ∧ mapGet t3 "uid" = some (.str b) ∧ a ≠ b := by
  have hs := preprocessN_stamped d.depth c c2 d d2 h
  obtain ⟨a, _, _, ha⟩ := hs.fresh p t t2 hp htu hp2
  obtain ⟨b, _, _, hb⟩ := hs.fresh q t1 t3 hq htu1 hq2
  refine ⟨_, _, ha, hb, ?_⟩
  intro hab
  apply hpq
  apply hs.apart p q t t1 t2 t3 hp htu hq htu1 hp2 hq2
  rw [ha, hb, hab]

/-! ## Objects the walk reaches are still in the result -/

/-- A field the walk descends into keeps its value through `assignUid`. -/
theorem assignUid_mapGet_of_walked (c c1 : uidCache) (t t1 : List (String × JSON))
    (h : assignUid c t = .ok (t1, c1)) (k : String) (v : JSON) (hn : k ≠ "names")
    (hu : k ≠ "uid" ∨ mapGet t "url" = none) (hk : mapGet t k = some v) :
    mapGet t1 k = some v := by
  have hdel : mapGet (mapDelete t "names") k = some v := by
    rw [mapGet_delete_names _ _ hn]; exact hk
  rcases assignUid_cases c t with ⟨u, hurl, ha⟩ | ⟨w, _, _, ha⟩ | ⟨w, _, _, ha⟩ | ⟨_, hw, ha⟩
  · rw [ha] at h
    simp only [Except.ok.injEq, Prod.mk.injEq] at h
    rw [← h.1, mapGet_mapSet]
    have hne : "uid" ≠ k := by
      intro he
      rcases hu with hu | hu
      · exact hu he.symm
      · rw [hurl] at hu; cases hu
    simp only [hne, if_false]
    exact hdel
  · rw [ha] at h; cases h
  · rw [ha] at h
    simp only [Except.ok.injEq, Prod.mk.injEq] at h
    rw [← h.1]
    exact hdel
  · rw [ha] at h
    simp only [Except.ok.injEq, Prod.mk.injEq] at h
    rw [← h.1, mapGet_mapSet]
    have hne : "uid" ≠ k := by
      intro he
      rw [← he, hw] at hk
      cases hk
    simp only [hne, if_false]
    exact hdel

/-- The loop over a list keeps the positions: the element at an index after the
loop is the result of the body on the element that was there. -/
theorem forElems_getElem (f : uidCache → JSON → Except Failure (JSON × uidCache))
    (l : List JSON) : ∀ (c c2 : uidCache) (l2 : List JSON) (i : Nat) (v : JSON),
    forElems f c l = .ok (l2, c2) → l[i]? = some v →
    ∃ v2 ca cb, l2[i]? = some v2 ∧ f ca v = .ok (v2, cb) := by
  induction l with
  | nil =>
    intro c c2 l2 i v _ hv
    simp at hv
  | cons v0 rest ih =>
    intro c c2 l2 i v h hv
    obtain ⟨v1, c1, rest1, h0, hr, rfl⟩ := forElems_cons_ok f c c2 v0 rest l2 h
    cases i with
    | zero =>
      simp only [List.getElem?_cons_zero, Option.some.injEq] at hv
      subst hv
      exact ⟨v1, c, c1, by simp, h0⟩
    | succ i =>
      simp only [List.getElem?_cons_succ] at hv
      obtain ⟨v2, ca, cb, h1, h2⟩ := ih c1 c2 rest1 i v hr hv
      exact ⟨v2, ca, cb, by simpa using h1, h2⟩

/-- An object of the input at a path the walk descends along is an object of the
result at the same path. -/
theorem preprocessN_keeps_walked (n : Nat) : ∀ (c c2 : uidCache) (d d2 : JSON)
    (p : List Step) (t : List (String × JSON)), preprocessN n c d = .ok (d2, c2) →
    walkedPath d p = true → d.at p = some (.obj t) → ∃ t2, d2.at p = some (.obj t2) := by
  induction n with
  | zero =>
    intro c c2 d d2 p t h _ hp
    cases d <;> simp [preprocessN] at h <;> cases p <;> simp [JSON.at] at hp
  | succ n ih =>
    intro c c2 d d2 p t h hw hp
    cases d with
    | null => cases p <;> simp [JSON.at] at hp
    | bool b => cases p <;> simp [JSON.at] at hp
    | num x => cases p <;> simp [JSON.at] at hp
    | str s => exact absurd hp (at_str s p t)
    | arr l =>
      rw [preprocessN_arr] at h
      cases hf : forElems (preprocessN n) c l with
      | error e => simp [hf] at h
      | ok r =>
        obtain ⟨l2, c3⟩ := r
        simp only [hf, Except.ok.injEq, Prod.mk.injEq] at h
        obtain ⟨rfl, rfl⟩ := h
        cases p with
        | nil => rw [at_nil] at hp; cases hp
        | cons s p =>
          cases s with
          | key k => rw [at_arr_key] at hp; cases hp
          | index i =>
            rw [at_arr_index] at hp
            simp only [walkedPath] at hw
            cases hv : l[i]? with
            | none => simp [hv] at hp
            | some v =>
              simp only [hv] at hp hw
              obtain ⟨v2, ca, cb, h1, h2⟩ := forElems_getElem (preprocessN n) l c c3 l2 i v hf hv
              obtain ⟨t2, ht2⟩ := ih ca cb v v2 p t h2 hw hp
              exact ⟨t2, by rw [at_arr_index, h1]; exact ht2⟩
    | obj t0 =>
      rw [preprocessN_obj] at h
      cases ha : assignUid c t0 with
      | error e => simp [ha] at h
      | ok r =>
        obtain ⟨t1, c1⟩ := r
        simp only [ha] at h
        cases hf : forFields (preprocessN n) c1 t1 with
        | error e => simp [hf] at h
        | ok r =>
          obtain ⟨t2, c3⟩ := r
          simp only [hf, Except.ok.injEq, Prod.mk.injEq] at h
          obtain ⟨rfl, rfl⟩ := h
          cases p with
          | nil => exact ⟨t2, at_nil _⟩
          | cons s p =>
            cases s with
            | index i => rw [at_obj_index] at hp; cases hp
            | key k =>
              rw [at_obj_key] at hp
              simp only [walkedPath, Bool.and_eq_true, Bool.or_eq_true, decide_eq_true_eq,
                Option.isNone_iff_eq_none] at hw
              obtain ⟨⟨hn, hu⟩, hw1⟩ := hw
              cases hv : mapGet t0 k with
              | none => simp [hv] at hp
              | some v =>
                simp only [hv] at hp hw1
                have h1 := assignUid_mapGet_of_walked c c1 t0 t1 ha k v hn hu hv
                rcases forFields_mapGet (preprocessN n) t1 c1 c3 t2 hf k with
                  ⟨h2, _⟩ | ⟨w, v2, ca, cb, h2, h3, h4⟩
                · rw [h2] at h1; cases h1
                · rw [h2] at h1
                  simp only [Option.some.injEq] at h1
                  subst h1
                  obtain ⟨x, hx⟩ := ih ca cb w v2 p t h4 hw1 hp
                  exact ⟨x, by rw [at_obj_key, h3]; exact hx⟩

/-- C7, as the code has it: when `preprocess` returns, two objects at different
paths of the input that had neither a `url` nor a `uid` field and that the walk
reaches (they lie neither under a `names` field nor under the `uid` field of an
object with a `url` field) are objects of the result at the same paths and carry
`uid` strings that differ, whatever their other fields are. -/
theorem C7_walked_anonymous_uids_differ (c c2 : uidCache) (d d2 : JSON) (p q : List Step)
    (t t1 : List (String × JSON)) (h : preprocess c d = .ok (d2, c2)) (hpq : p ≠ q)
    (hp : d.at p = some (.obj t)) (hq : d.at q = some (.obj t1))
    (htu : unnamed t) (htu1 : unnamed t1)
    (hwp : walkedPath d p = true) (hwq : walkedPath d q = true) :
    ∃ t2 t3 a b, d2.at p = some (.obj t2) ∧ d2.at q = some (.obj t3) ∧
      mapGet t2 "uid" = some (.str a) ∧ mapGet t3 "uid" = some (.str b) ∧ a ≠ b := by
  obtain ⟨t2, hp2⟩ := preprocessN_keeps_walked d.depth c c2 d d2 p t h hwp hp
  obtain ⟨t3, hq2⟩ := preprocessN_keeps_walked d.depth c c2 d d2 q t1 h hwq hq
  obtain ⟨a, b, ha, hb, hab⟩ :=
    remaining_anonymous_uids_differ c c2 d d2 p q t t1 t2 t3 h hpq hp hq htu htu1 hp2 hq2
  exact ⟨t2, t3, a, b, hp2, hq2, ha, hb, hab⟩

/-- C7 at a document with two equal `stats` entries: they get `_:2` and `_:3`. -/
theorem C7_walked_anonymous_uids_differ_witness :
    ∃ t2 t3 a b,
      (JSON.obj [("url", .str "/pokemon/1/"),
        ("stats", .arr [.obj [("base", .num 45), ("uid", .str "_:2")],
          .obj [("base", .num 45), ("uid", .str "_:3")]]),
        ("uid", .str "_:1")]).at [.key "stats", .index 0] = some (.obj t2) ∧
      (JSON.obj [("url", .str "/pokemon/1/"),
        ("stats", .arr [.obj [("base", .num 45), ("uid", .str "_:2")],
          .obj [("base", .num 45), ("uid", .str "_:3")]]),
        ("uid", .str "_:1")]).at [.key "stats", .index 1] = some (.obj t3) ∧
      mapGet t2 "uid" = some (.str a) ∧ mapGet t3 "uid" = some (.str b) ∧ a ≠ b :=
  C7_walked_anonymous_uids_differ uidCache.empty
    { uids := [], blanks := [("/pokemon/1/", "_:1")], latestBlank := 3 }
    (.obj [("url", .str "/pokemon/1/"),
      ("stats", .arr [.obj [("base", .num 45)], .obj [("base", .num 45)]])])
    (.obj [("url", .str "/pokemon/1/"),
      ("stats", .arr [.obj [("base", .num 45), ("uid", .str "_:2")],
        .obj [("base", .num 45), ("uid", .str "_:3")]]),
      ("uid", .str "_:1")])
    [.key "stats", .index 0] [.key "stats", .index 1]
    [("base", .num 45)] [("base", .num 45)]
    rfl (by decide) rfl rfl ⟨rfl, rfl⟩ ⟨rfl, rfl⟩ rfl rfl

/-- C7, as stated, fails. In `{"names": [{}, {}]}` the two list elements have
neither `url` nor `uid`; `preprocess` deletes `names` without visiting them, so
the result has no object at their paths and they carry no `uid`. In
`{"url": "/type/5/", "uid": {"a": {}, "b": {}}}` the two objects under `uid` are
dropped when `uid` is overwritten. In both cases "any two such objects carry
different uid values" is false. -/
theorem C7_unvisited_objects_get_no_uid :
    preprocess uidCache.empty (.obj [("names", .arr [.obj [], .obj []])])
      = .ok (.obj [("uid", .str "_:1")], { uids := [], blanks := [], latestBlank := 1 }) ∧
    (JSON.obj [("names", .arr [.obj [], .obj []])]).at [.key "names", .index 0]
      = some (.obj []) ∧
    (JSON.obj [("names", .arr [.obj [], .obj []])]).at [.key "names", .index 1]
      = some (.obj []) ∧
    unnamed [] ∧
    (JSON.obj [("uid", .str "_:1")]).at [.key "names", .index 0] = none ∧
    (JSON.obj [("uid", .str "_:1")]).at [.key "names", .index 1] = none ∧
    preprocess uidCache.empty
        (.obj [("url", .str "/type/5/"), ("uid", .obj [("a", .obj []), ("b", .obj [])])])
      = .ok (.obj [("url", .str "/type/5/"), ("uid", .str "_:1")],
          { uids := [], blanks := [("/type/5/", "_:1")], latestBlank := 1 }) ∧
    (JSON.obj [("url", .str "/type/5/"), ("uid", .str "_:1")]).at [.key "uid", .key "a"]
      = none ∧
    ¬ (∀ (d2 : JSON) (c2 : uidCache) (p q : List Step) (t t1 : List (String × JSON)),
        preprocess uidCache.empty (.obj [("names", .arr [.obj [], .obj []])]) = .ok (d2, c2) →
        p ≠ q →
        (JSON.obj [("names", .arr [.obj [], .obj []])]).at p = some (.obj t) →
        (JSON.obj [("names", .arr [.obj [], .obj []])]).at q = some (.obj t1) →
        unnamed t → unnamed t1 →
        ∃ t2 t3 a b, d2.at p = some (.obj t2) ∧ d2.at q = some (.obj t3) ∧
          mapGet t2 "uid" = some (.str a) ∧ mapGet t3 "uid" = some (.str b) ∧ a ≠ b) := by
  refine ⟨rfl, rfl, rfl, ⟨rfl, rfl⟩, rfl, rfl, rfl, rfl, ?_⟩
  intro hall
  obtain ⟨t2, _, _, _, h2, _⟩ := hall _ _ [.key "names", .index 0] [.key "names", .index 1]
    [] [] rfl (by decide) rfl rfl ⟨rfl, rfl⟩ ⟨rfl, rfl⟩
  cases h2

/-! ## Submitting a document -/

/-- C6: when `json.Marshal` or the mutation of the store returns an error,
`mutate` returns an error and the cache it leaves is the cache it was given,
whatever that cache is; the loop over `res.Uids` with its `setBlank` calls is not
entered. -/
theorem C6_failed_mutate_keeps_cache (marshal : JSON → Except String String)
    (txnMutate : String → Except String (List (String × String))) (data : JSON)
    (h : (∃ e, marshal data = .error e) ∨
      ∃ b e, marshal data = .ok b ∧ txnMutate b = .error e) :
    ∃ msg, ∀ c : uidCache, mutate marshal txnMutate c data = .err msg c := by
  rcases h with ⟨e, he⟩ | ⟨b, e, hb, he⟩
  · exact ⟨"could not marshal: " ++ e, fun c => by simp only [mutate, he]⟩
  · exact ⟨"could not mutate: " ++ e, fun c => by simp only [mutate, hb, he]⟩

/-- C6 at a store that refuses the connection. -/
theorem C6_failed_mutate_keeps_cache_witness :
    ∃ msg, ∀ c : uidCache,
      mutate (fun _ => .ok "{}") (fun _ => .error "connection refused") c
        (.obj [("url", .str "/pokemon/1/"), ("uid", .str "_:1")]) = .err msg c :=
  C6_failed_mutate_keeps_cache (fun _ => .ok "{}") (fun _ => .error "connection refused")
    (.obj [("url", .str "/pokemon/1/"), ("uid", .str "_:1")])
    (Or.inr ⟨"{}", "connection refused", rfl, rfl⟩)

/-- C5 at a document with a nested URL-bearing object and an old `uid` at the root. -/
theorem C5_url_objects_take_the_cache_uid_witness :
    ∃ d2 c2, preprocess uidCache.empty
        (.obj [("url", .str "/pokemon/1/"), ("uid", .str "0x1"),
          ("type", .obj [("url", .str "/type/5/")])]) = .ok (d2, c2) ∧
      (∀ t u, Within anyField d2 (.obj t) → mapGet t "url" = some (.str u) →
        mapGet t "uid" = some (.str (c2.get u).1)) ∧
      (∀ t1 t2 u, Within anyField d2 (.obj t1) → Within anyField d2 (.obj t2) →
        mapGet t1 "url" = some (.str u) → mapGet t2 "url" = some (.str u) →
        mapGet t1 "uid" = mapGet t2 "uid") :=
  C5_url_objects_take_the_cache_uid uidCache.empty
    (.obj [("url", .str "/pokemon/1/"), ("uid", .str "0x1"),
      ("type", .obj [("url", .str "/type/5/")])])
    (by
      intro t v hw hu
      rcases within_obj_inv _ _ _ hw with hx | ⟨k, w, hm, hw1⟩
      · simp only [JSON.obj.injEq] at hx
        subst hx
        exact ⟨"/pokemon/1/", by simpa [mapGet] using hu.symm⟩
      · simp only [List.mem_cons, Prod.mk.injEq, List.mem_singleton, List.not_mem_nil,
          or_false] at hm
        rcases hm with ⟨_, rfl⟩ | ⟨_, rfl⟩ | ⟨_, rfl⟩
        · cases within_str _ _ _ hw1
        · cases within_str _ _ _ hw1
        · rcases within_obj_inv _ _ _ hw1 with hx | ⟨k1, w1, hm1, hw2⟩
          · simp only [JSON.obj.injEq] at hx
            subst hx
            exact ⟨"/type/5/", by simpa [mapGet] using hu.symm⟩
          · simp only [List.mem_singleton, Prod.mk.injEq] at hm1
            obtain ⟨_, rfl⟩ := hm1
            cases within_str _ _ _ hw2)

end PokeGraph
